import Mathlib

/-!
Verification development for the `skills-lock` tool: a lockfile manager that
pins named "skills" to exact git commits and content hashes.

The TypeScript sources are shallowly embedded:
* strings are Lean `String`s (or `List Char` where byte-level reasoning is
  needed); JavaScript `string | undefined` fields become `Option String`;
* JavaScript truthiness on optional strings (`undefined` and `""` are falsy)
  is modelled explicitly;
* fallible code returns `Except String`;
* the filesystem tree walked by `computeSkillHash` is an inductive tree;
* the SHA-256 digest is modelled as an injective function of the byte stream
  fed to the hash accumulator (we keep the stream itself), so hash
  equality/inequality reflects equality/inequality of the accumulated input.

All definitions are translated from the sources (`src/cli.ts`,
`src/lockfile.ts`, `src/installer.ts`, `src/resolver.ts`); definitions whose
doc comment says otherwise model the specification's description of external
shapes (e.g. the scanner's record type, whose current declaration is not in
the sources, only its use sites).
-/

namespace SkillsLock

/-- `SkillEntry` from `src/types.ts`: one locked skill.  `integrity` is an
optional field (`integrity?: string`). -/
structure SkillEntry where
  source : String
  path : String
  ref : String
  integrity : Option String
deriving DecidableEq, Repr

/-- `SkillMetadata` from `src/types.ts`: the `.skills-lock` sidecar contents. -/
structure SkillMetadata where
  ref : String
  integrity : String
deriving DecidableEq, Repr

/-- The scanner's record for an installed skill, as consumed by the install
command in `src/cli.ts` (`installedSkill.metadata`): name, on-disk path,
manifest flag and the optional sidecar metadata.  The spec describes the
external scanner as returning exactly these fields. -/
structure InstalledSkill where
  name : String
  diskPath : String
  hasSkillMd : Bool
  metadata : Option SkillMetadata
deriving DecidableEq, Repr

/-- The action the install command takes for one locked entry. -/
inductive InstallDecision where
  /-- install, no prior copy to remove -/
  | fresh
  /-- remove the existing copy, then install -/
  | reinstall
  /-- no install action, counted as skipped -/
  | skip
deriving DecidableEq, Repr

/-- The per-entry decision logic of the `install` command
(`src/cli.ts`, lines 65-103).  The JavaScript condition
`entry.integrity && meta.integrity !== entry.integrity` is truthiness on an
optional string: it holds exactly when `entry.integrity` is a *non-empty*
string that differs from `meta.integrity`. -/
def installDecision (force : Bool) (installed : Option InstalledSkill)
    (entry : SkillEntry) : InstallDecision :=
  match installed with
  | some isk =>
    if !force then
      match isk.metadata with
      | none => .reinstall
      | some meta =>
        if meta.ref != entry.ref then .reinstall
        else
          match entry.integrity with
          | some s => if s != "" && meta.integrity != s then .reinstall else .skip
          | none => .skip
    else .reinstall
  | none => .fresh

/-- The message thrown by the install command when the post-install hash does
not match the pinned integrity (`src/cli.ts`, lines 94-99). -/
def integrityErrorMessage (name source : String) : String :=
  "Integrity check failed for '" ++ name ++ "': content does not match skills.lock.\n" ++
  "Run 'skills-lock add " ++ source ++ " --skill " ++ name ++ " --force' to re-pin."

/-- The verify-then-persist step run after the external installer
(`src/cli.ts`, lines 91-102): compute the hash, fail when a truthy pinned
integrity disagrees with it, otherwise write the sidecar with the entry's ref
and the computed hash.  `.error` models the thrown error (the sidecar write is
never reached); `.ok m` models a successful pass that wrote sidecar `m`. -/
def postInstall (name : String) (entry : SkillEntry)
    (computedIntegrity : String) : Except String SkillMetadata :=
  match entry.integrity with
  | some s =>
    if s != "" && computedIntegrity != s then
      .error (integrityErrorMessage name entry.source)
    else .ok ⟨entry.ref, computedIntegrity⟩
  | none => .ok ⟨entry.ref, computedIntegrity⟩

/-- The in-memory lockfile (`src/types.ts`): `skills` is a JavaScript object,
modelled as an association list in key insertion order (real objects have no
duplicate keys; theorems that need this take a `Nodup` hypothesis). -/
structure Lockfile where
  version : Nat
  skills : List (String × SkillEntry)
deriving DecidableEq, Repr

/-- `LockfileDiff` from `src/types.ts`. -/
structure LockfileDiff where
  added : List String
  removed : List String
  changed : List String
deriving DecidableEq, Repr

/-- The `ref` of the named skill, `skills[n].ref` (`undefined` when absent). -/
def skillRef (skills : List (String × SkillEntry)) (n : String) : Option String :=
  (skills.lookup n).map SkillEntry.ref

/-- `diffLockfiles` from `src/lockfile.ts` (lines 95-110): `added`/`removed`
by name-set membership, `changed` = names in both whose `ref` differs. -/
def diffLockfiles (oldLock newLock : Lockfile) : LockfileDiff :=
  let oldNames := oldLock.skills.map Prod.fst
  let newNames := newLock.skills.map Prod.fst
  { added := newNames.filter (fun n => !oldNames.contains n)
    removed := oldNames.filter (fun n => !newNames.contains n)
    changed := newNames.filter (fun n =>
      oldNames.contains n && skillRef oldLock.skills n != skillRef newLock.skills n) }

end SkillsLock

namespace SkillsLock

/-- Claim C1 (amended): for a locked entry processed by `install` without
`--force`: not installed means a fresh install; installed without sidecar
metadata, or with `metadata.ref ≠ entry.ref`, or with `entry.integrity` a
*non-empty* string different from `metadata.integrity`, means remove and
reinstall; with matching ref and (whenever `entry.integrity` is a non-empty
string) matching integrity, the entry is skipped.  With `--force`, every
installed entry is reinstalled and a missing one is freshly installed. -/
theorem install_decision_table (force : Bool) (inst : Option InstalledSkill)
    (entry : SkillEntry) :
    (inst = none → installDecision force inst entry = .fresh) ∧
    (∀ isk, force = true → inst = some isk →
      installDecision force inst entry = .reinstall) ∧
    (∀ isk, force = false → inst = some isk → isk.metadata = none →
      installDecision force inst entry = .reinstall) ∧
    (∀ isk meta, force = false → inst = some isk → isk.metadata = some meta →
      meta.ref ≠ entry.ref → installDecision force inst entry = .reinstall) ∧
    (∀ isk meta s, force = false → inst = some isk → isk.metadata = some meta →
      meta.ref = entry.ref → entry.integrity = some s → s ≠ "" →
      meta.integrity ≠ s → installDecision force inst entry = .reinstall) ∧
    (∀ isk meta, force = false → inst = some isk → isk.metadata = some meta →
      meta.ref = entry.ref →
      (∀ s, entry.integrity = some s → s ≠ "" → meta.integrity = s) →
      installDecision force inst entry = .skip) := by
  refine ⟨?_, ?_, ?_, ?_, ?_, ?_⟩
  · rintro rfl; rfl
  · rintro isk rfl rfl; rfl
  · rintro isk rfl rfl h; simp [installDecision, h]
  · rintro isk meta rfl rfl h hne
    simp [installDecision, h, bne_iff_ne, hne]
  · rintro isk meta s rfl rfl h href hint hs hne
    simp [installDecision, h, href, hint, bne_iff_ne, hs, hne]
  · rintro isk meta rfl rfl h href hint
    cases hcase : entry.integrity with
    | none => simp [installDecision, h, href, hcase]
    | some s =>
      by_cases hs : s = ""
      · simp [installDecision, h, href, hcase, hs]
      · have := hint s hcase hs
        simp [installDecision, h, href, hcase, bne_iff_ne, this]

/-- Witness for `install_decision_table` at concrete inputs. -/
theorem install_decision_table_witness :
    installDecision false none ⟨"s", "p", "r", none⟩ = .fresh ∧
    installDecision true (some ⟨"n", "d", true, none⟩) ⟨"s", "p", "r", none⟩ = .reinstall ∧
    installDecision false (some ⟨"n", "d", true, none⟩) ⟨"s", "p", "r", none⟩ = .reinstall ∧
    installDecision false (some ⟨"n", "d", true, some ⟨"q", "i"⟩⟩) ⟨"s", "p", "r", none⟩ = .reinstall ∧
    installDecision false (some ⟨"n", "d", true, some ⟨"r", "i"⟩⟩) ⟨"s", "p", "r", some "j"⟩ = .reinstall ∧
    installDecision false (some ⟨"n", "d", true, some ⟨"r", "i"⟩⟩) ⟨"s", "p", "r", some "i"⟩ = .skip := by
  refine ⟨(install_decision_table false none ⟨"s", "p", "r", none⟩).1 rfl,
    ((install_decision_table true (some ⟨"n", "d", true, none⟩) ⟨"s", "p", "r", none⟩).2.1) _ rfl rfl,
    ((install_decision_table false (some ⟨"n", "d", true, none⟩) ⟨"s", "p", "r", none⟩).2.2.1) _ rfl rfl rfl,
    ((install_decision_table false (some ⟨"n", "d", true, some ⟨"q", "i"⟩⟩) ⟨"s", "p", "r", none⟩).2.2.2.1) _ _ rfl rfl rfl (by decide),
    ((install_decision_table false (some ⟨"n", "d", true, some ⟨"r", "i"⟩⟩) ⟨"s", "p", "r", some "j"⟩).2.2.2.2.1) _ _ "j" rfl rfl rfl rfl rfl (by decide) (by decide),
    ((install_decision_table false (some ⟨"n", "d", true, some ⟨"r", "i"⟩⟩) ⟨"s", "p", "r", some "i"⟩).2.2.2.2.2) _ _ rfl rfl rfl rfl ?_⟩
  rintro s hs -
  cases hs; rfl

/-- Counterexample to claim C1 as stated: a locked entry whose `integrity` is
the *empty* string is "set", and here differs from the sidecar's integrity,
yet the install command skips the entry instead of reinstalling it (JavaScript
truthiness: `"" && _` is falsy). -/
theorem install_decision_empty_integrity_skips :
    installDecision false
      (some ⟨"pdf", ".agents/skills/pdf", true, some ⟨"r", "sha256:aa"⟩⟩)
      ⟨"s", "p", "r", some ""⟩ = .skip ∧
    (⟨"s", "p", "r", some ""⟩ : SkillEntry).integrity = some "" ∧
    ("sha256:aa" : String) ≠ "" := by
  refine ⟨rfl, rfl, by decide⟩

/-- Claim C2 (amended): after the installer runs, when the lock entry pins a
*non-empty* `integrity` that differs from the computed hash the step fails
with the integrity error and no sidecar is written; otherwise the sidecar is
written with exactly the entry's `ref` and the computed hash. -/
theorem post_install_spec (name : String) (entry : SkillEntry) (computed : String) :
    (∀ s, entry.integrity = some s → s ≠ "" → computed ≠ s →
      postInstall name entry computed = .error (integrityErrorMessage name entry.source)) ∧
    ((∀ s, entry.integrity = some s → s ≠ "" → computed = s) →
      postInstall name entry computed = .ok ⟨entry.ref, computed⟩) := by
  constructor
  · rintro s hint hs hne
    simp [postInstall, hint, bne_iff_ne, hs, hne]
  · intro h
    cases hcase : entry.integrity with
    | none => simp [postInstall, hcase]
    | some s =>
      by_cases hs : s = ""
      · simp [postInstall, hcase, hs]
      · have := h s hcase hs
        simp [postInstall, hcase, bne_iff_ne, this]

/-- Witness for `post_install_spec` at concrete inputs. -/
theorem post_install_spec_witness :
    postInstall "pdf" ⟨"s", "p", "r", some "sha256:aa"⟩ "sha256:bb" =
      .error (integrityErrorMessage "pdf" "s") ∧
    postInstall "pdf" ⟨"s", "p", "r", some "sha256:aa"⟩ "sha256:aa" =
      .ok ⟨"r", "sha256:aa"⟩ := by
  refine ⟨(post_install_spec "pdf" ⟨"s", "p", "r", some "sha256:aa"⟩ "sha256:bb").1
      "sha256:aa" rfl (by decide) (by decide),
    (post_install_spec "pdf" ⟨"s", "p", "r", some "sha256:aa"⟩ "sha256:aa").2 ?_⟩
  rintro s hs -
  cases hs; rfl

/-- Counterexample to claim C2 as stated: with `integrity` pinned to the
empty string the computed hash differs from it, yet the operation succeeds
and the sidecar is written (JavaScript truthiness skips the check). -/
theorem post_install_empty_integrity_accepts :
    postInstall "pdf" ⟨"s", "p", "r", some ""⟩ "sha256:aa" =
      .ok ⟨"r", "sha256:aa"⟩ ∧
    (⟨"s", "p", "r", some ""⟩ : SkillEntry).integrity = some "" ∧
    ("sha256:aa" : String) ≠ "" := by
  refine ⟨rfl, rfl, by decide⟩

end SkillsLock

namespace SkillsLock

/-- Claim C8: `diffLockfiles` classifies names: `added` are the names of
`newLock` absent from `oldLock`, `removed` the names of `oldLock` absent from
`newLock`, `changed` the common names whose `ref` differs; entries equal in
`ref` never land in `changed` whatever their other fields do, and diffing a
lockfile against itself is empty. -/
theorem diff_lockfiles_spec (oldLock newLock : Lockfile) :
    (∀ n, n ∈ (diffLockfiles oldLock newLock).added ↔
      n ∈ newLock.skills.map Prod.fst ∧ n ∉ oldLock.skills.map Prod.fst) ∧
    (∀ n, n ∈ (diffLockfiles oldLock newLock).removed ↔
      n ∈ oldLock.skills.map Prod.fst ∧ n ∉ newLock.skills.map Prod.fst) ∧
    (∀ n, n ∈ (diffLockfiles oldLock newLock).changed ↔
      n ∈ newLock.skills.map Prod.fst ∧ n ∈ oldLock.skills.map Prod.fst ∧
      skillRef oldLock.skills n ≠ skillRef newLock.skills n) ∧
    (∀ n, skillRef oldLock.skills n = skillRef newLock.skills n →
      n ∉ (diffLockfiles oldLock newLock).changed) ∧
    (diffLockfiles oldLock oldLock = ⟨[], [], []⟩) := by
  refine ⟨?_, ?_, ?_, ?_, ?_⟩
  · intro n
    simp [diffLockfiles, List.mem_filter]
  · intro n
    simp [diffLockfiles, List.mem_filter]
  · intro n
    simp [diffLockfiles, List.mem_filter, bne_iff_ne, and_assoc]
  · intro n h hmem
    simp [diffLockfiles, List.mem_filter, bne_iff_ne, h] at hmem
  · simp [diffLockfiles, LockfileDiff.mk.injEq, List.filter_eq_nil_iff]

/-- Witness for `diff_lockfiles_spec` at concrete lockfiles (adds `json`,
removes `xlsx`, changes `pdf`, keeps `csv`). -/
theorem diff_lockfiles_spec_witness :
    ("json" ∈ (diffLockfiles
        ⟨1, [("xlsx", ⟨"s", "p", "r1", none⟩), ("pdf", ⟨"s", "p", "r2", none⟩), ("csv", ⟨"s", "p", "r3", none⟩)]⟩
        ⟨1, [("pdf", ⟨"s", "p", "r9", none⟩), ("csv", ⟨"s", "q", "r3", none⟩), ("json", ⟨"s", "p", "r4", none⟩)]⟩).added) ∧
    ("xlsx" ∈ (diffLockfiles
        ⟨1, [("xlsx", ⟨"s", "p", "r1", none⟩), ("pdf", ⟨"s", "p", "r2", none⟩), ("csv", ⟨"s", "p", "r3", none⟩)]⟩
        ⟨1, [("pdf", ⟨"s", "p", "r9", none⟩), ("csv", ⟨"s", "q", "r3", none⟩), ("json", ⟨"s", "p", "r4", none⟩)]⟩).removed) ∧
    ("pdf" ∈ (diffLockfiles
        ⟨1, [("xlsx", ⟨"s", "p", "r1", none⟩), ("pdf", ⟨"s", "p", "r2", none⟩), ("csv", ⟨"s", "p", "r3", none⟩)]⟩
        ⟨1, [("pdf", ⟨"s", "p", "r9", none⟩), ("csv", ⟨"s", "q", "r3", none⟩), ("json", ⟨"s", "p", "r4", none⟩)]⟩).changed) ∧
    ("csv" ∉ (diffLockfiles
        ⟨1, [("xlsx", ⟨"s", "p", "r1", none⟩), ("pdf", ⟨"s", "p", "r2", none⟩), ("csv", ⟨"s", "p", "r3", none⟩)]⟩
        ⟨1, [("pdf", ⟨"s", "p", "r9", none⟩), ("csv", ⟨"s", "q", "r3", none⟩), ("json", ⟨"s", "p", "r4", none⟩)]⟩).changed) := by
  refine ⟨((diff_lockfiles_spec _ _).1 "json").2 (by decide), ?_, ?_, ?_⟩
  · exact ((diff_lockfiles_spec _ _).2.1 "xlsx").2 (by decide)
  · exact ((diff_lockfiles_spec _ _).2.2.1 "pdf").2 (by decide)
  · exact (diff_lockfiles_spec _ _).2.2.2.1 "csv" (by decide)

end SkillsLock


namespace SkillsLock

/-- A JavaScript value as seen by `validateLockfile(data: unknown)` and the
lockfile (de)serialisation code.  `undef` is `undefined` (e.g. a missing
property); objects are association lists in key insertion order. -/
inductive JSVal where
  | undef
  | nul
  | bool (b : Bool)
  | num (n : Int)
  | str (s : String)
  | arr (elems : List JSVal)
  | obj (fields : List (String × JSVal))

/-- `typeof v === "object"`: true for `null`, arrays and plain objects. -/
def typeofObject : JSVal → Bool
  | .nul => true
  | .arr _ => true
  | .obj _ => true
  | _ => false

/-- `v === null`. -/
def isNul : JSVal → Bool
  | .nul => true
  | _ => false

/-- `typeof v === "string"`. -/
def isStr : JSVal → Bool
  | .str _ => true
  | _ => false

/-- `v === n` for a number literal `n`. -/
def strictEqNum (v : JSVal) (n : Int) : Bool :=
  match v with
  | .num m => m == n
  | _ => false

/-- Property access `v[k]` for the non-index keys the code reads; a missing
property reads as `undefined`. -/
def getProp (v : JSVal) (k : String) : JSVal :=
  match v with
  | .obj fields => (fields.lookup k).getD .undef
  | _ => (.undef)

/-- `Object.entries(v)`: own enumerable entries; array elements get their
index rendered as the key. -/
def entriesOf : JSVal → List (String × JSVal)
  | .obj fields => fields
  | .arr xs => xs.enum.map (fun p => (toString p.1, p.2))
  | _ => []

mutual

/-- String conversion as used by template literals: `` `${v}` ``.  (Numbers
are modelled as integers, so their rendering is decimal.) -/
def jsDisplay : JSVal → String
  | .undef => "undefined"
  | .nul => "null"
  | .bool true => "true"
  | .bool false => "false"
  | .num n => toString n
  | .str s => s
  | .arr xs => jsDisplayElems xs
  | .obj _ => "[object Object]"

/-- Array-to-string: elements joined by commas, with `null`/`undefined`
elements rendering empty. -/
def jsDisplayElems : List JSVal → String
  | [] => ""
  | [x] => jsDisplayElem x
  | x :: y :: rest => jsDisplayElem x ++ "," ++ jsDisplayElems (y :: rest)

/-- One array element inside `Array.prototype.toString`. -/
def jsDisplayElem : JSVal → String
  | .undef => ""
  | .nul => ""
  | v => jsDisplay v

end

/-- One character of the character class `[0-9a-f]`. -/
def isLowerHexChar (c : Char) : Bool :=
  ('0' ≤ c && c ≤ '9') || ('a' ≤ c && c ≤ 'f')

/-- The regular expression `^[0-9a-f]{40}$`. -/
def isLowerHex40 (s : String) : Bool :=
  s.length == 40 && s.data.all isLowerHexChar

/-- `/^[0-9a-f]{40}$/.test(x)` on the `ref` value (only ever reached once
`ref` is known to be a string). -/
def refIsFullSha : JSVal → Bool
  | .str s => isLowerHex40 s
  | _ => false

/-- The `for (const field of required)` loop of `validateLockfile`: each of
`source`, `path`, `ref` must be a string, reported in that order. -/
def validateSkillFields (name : String) (entry : JSVal) :
    List String → Except String Unit
  | [] => .ok ()
  | f :: rest =>
    if !isStr (getProp entry f) then
      .error ("Skill '" ++ name ++ "' missing or invalid field '" ++ f ++ "'")
    else validateSkillFields name entry rest

/-- Validation of one `skills` entry (`src/lockfile.ts`, lines 68-89). -/
def validateSkillEntry (name : String) (entry : JSVal) : Except String Unit :=
  if !typeofObject entry || isNul entry then
    .error ("Skill '" ++ name ++ "' must be an object")
  else
    match validateSkillFields name entry ["source", "path", "ref"] with
    | .error e => .error e
    | .ok () =>
      if !refIsFullSha (getProp entry "ref") then
        .error ("Skill '" ++ name ++ "' has invalid ref '" ++
          jsDisplay (getProp entry "ref") ++ "' — must be a full 40-character commit SHA")
      else .ok ()

/-- The `for (const [name, entry] of Object.entries(skills))` loop. -/
def validateSkillsList : List (String × JSVal) → Except String Unit
  | [] => .ok ()
  | (name, entry) :: rest =>
    match validateSkillEntry name entry with
    | .error e => .error e
    | .ok () => validateSkillsList rest

/-- `validateLockfile` from `src/lockfile.ts` (lines 50-90): throwing is
modelled as returning `.error` with the thrown message. -/
def validateLockfile (data : JSVal) : Except String Unit :=
  if !typeofObject data || isNul data then
    .error "Lockfile must be a JSON object"
  else if !strictEqNum (getProp data "version") 1 then
    .error ("Unsupported lockfile version: " ++ jsDisplay (getProp data "version"))
  else if !typeofObject (getProp data "skills") || isNul (getProp data "skills") then
    .error "Lockfile must have a 'skills' object"
  else
    validateSkillsList (entriesOf (getProp data "skills"))

/-- Schema conformance of a single entry, as the claim describes it. -/
def entryOK (entry : JSVal) : Bool :=
  typeofObject entry && !isNul entry &&
  isStr (getProp entry "source") && isStr (getProp entry "path") &&
  isStr (getProp entry "ref") && refIsFullSha (getProp entry "ref")

/-- Modelled from the claim's schema description (for the "fails exactly
when" comparison): top-level object, `version` exactly `1`, `skills` an
object, every entry an object with string `source`, `path`, `ref` and a `ref`
matching `^[0-9a-f]{40}$`.  "Object" is meant in the JavaScript `typeof`
sense used throughout the code. -/
def lockfileSchemaOK (data : JSVal) : Bool :=
  typeofObject data && !isNul data &&
  strictEqNum (getProp data "version") 1 &&
  typeofObject (getProp data "skills") && !isNul (getProp data "skills") &&
  (entriesOf (getProp data "skills")).all (fun p => entryOK p.2)

theorem validateSkillEntry_ok_iff (name : String) (entry : JSVal) :
    validateSkillEntry name entry = .ok () ↔ entryOK entry = true := by
  cases h1 : typeofObject entry <;> cases h2 : isNul entry <;>
    cases h3 : isStr (getProp entry "source") <;>
    cases h4 : isStr (getProp entry "path") <;>
    cases h5 : isStr (getProp entry "ref") <;>
    cases h6 : refIsFullSha (getProp entry "ref") <;>
    simp [validateSkillEntry, validateSkillFields, entryOK, h1, h2, h3, h4, h5, h6]

theorem validateSkillsList_ok_iff (es : List (String × JSVal)) :
    validateSkillsList es = .ok () ↔ (es.all (fun p => entryOK p.2)) = true := by
  induction es with
  | nil => simp [validateSkillsList]
  | cons hd tl ih =>
    obtain ⟨name, entry⟩ := hd
    simp only [validateSkillsList]
    cases h : validateSkillEntry name entry with
    | error e =>
      have hne : ¬ entryOK entry = true := by
        rw [← validateSkillEntry_ok_iff name entry]
        simp [h]
      simp [List.all_cons, hne]
    | ok u =>
      cases u
      have hok : entryOK entry = true := (validateSkillEntry_ok_iff name entry).1 h
      simp [List.all_cons, hok, ih]

end SkillsLock

namespace SkillsLock

theorem validateLockfile_ok_iff (data : JSVal) :
    validateLockfile data = .ok () ↔ lockfileSchemaOK data = true := by
  cases h1 : typeofObject data <;> cases h2 : isNul data <;>
    cases h3 : strictEqNum (getProp data "version") 1 <;>
    cases h4 : typeofObject (getProp data "skills") <;>
    cases h5 : isNul (getProp data "skills") <;>
    simp [validateLockfile, lockfileSchemaOK, h1, h2, h3, h4, h5,
      validateSkillsList_ok_iff]

/-- The lockfile document used in the ref-validation examples: a single skill
`x` with string `source` and `path` and the given `ref`. -/
def refProbeLockfile (r : String) : JSVal :=
  .obj [("version", .num 1),
        ("skills", .obj [("x", .obj [("source", .str "s"), ("path", .str "p"),
                                     ("ref", .str r)])])]

/-- The ref rejection message for skill `x` and the given ref rendering. -/
def invalidRefMessage (r : String) : String :=
  "Skill 'x' has invalid ref '" ++ r ++ "' — must be a full 40-character commit SHA"

/-- Claim C4: `validateLockfile` succeeds exactly on schema-conforming input,
and reports the first violation: non-object top level; `version` not exactly
`1` (an absent field rendering as `undefined`); missing/non-object `skills`;
non-object entry; non-string `source`, `path`, `ref` in that order; and a
`ref` failing `^[0-9a-f]{40}$`, with `'a'*40` accepted while `v1.2.3`,
`abc1234`, `main` and `'A'*40` are rejected by a message ending in
`must be a full 40-character commit SHA`. -/
theorem validate_lockfile_spec :
    (∀ data, validateLockfile data = .ok () ↔ lockfileSchemaOK data = true) ∧
    validateLockfile (.str "nope") = .error "Lockfile must be a JSON object" ∧
    validateLockfile (.obj []) = .error "Unsupported lockfile version: undefined" ∧
    validateLockfile (.obj [("version", .num 2), ("skills", .obj [])]) =
      .error "Unsupported lockfile version: 2" ∧
    validateLockfile (.obj [("version", .num 1)]) =
      .error "Lockfile must have a 'skills' object" ∧
    validateLockfile (.obj [("version", .num 1), ("skills", .obj [("x", .num 3)])]) =
      .error "Skill 'x' must be an object" ∧
    validateLockfile (.obj [("version", .num 1), ("skills", .obj [("x", .obj [])])]) =
      .error "Skill 'x' missing or invalid field 'source'" ∧
    validateLockfile (.obj [("version", .num 1),
        ("skills", .obj [("x", .obj [("source", .str "s")])])]) =
      .error "Skill 'x' missing or invalid field 'path'" ∧
    validateLockfile (.obj [("version", .num 1),
        ("skills", .obj [("x", .obj [("source", .str "s"), ("path", .str "p")])])]) =
      .error "Skill 'x' missing or invalid field 'ref'" ∧
    validateLockfile (refProbeLockfile (String.mk (List.replicate 40 'a'))) = .ok () ∧
    validateLockfile (refProbeLockfile "v1.2.3") = .error (invalidRefMessage "v1.2.3") ∧
    validateLockfile (refProbeLockfile "abc1234") = .error (invalidRefMessage "abc1234") ∧
    validateLockfile (refProbeLockfile "main") = .error (invalidRefMessage "main") ∧
    validateLockfile (refProbeLockfile (String.mk (List.replicate 40 'A'))) =
      .error (invalidRefMessage (String.mk (List.replicate 40 'A'))) ∧
    ("must be a full 40-character commit SHA".data.isSuffixOf
      (invalidRefMessage (String.mk (List.replicate 40 'A'))).data) = true := by
  refine ⟨validateLockfile_ok_iff, rfl, ?_, ?_, rfl, rfl, rfl, rfl, rfl, rfl, ?_, ?_, ?_, ?_,
    by decide⟩ <;>
    (simp [validateLockfile, validateSkillsList, validateSkillEntry, validateSkillFields,
      getProp, entriesOf, typeofObject, isNul, isStr, strictEqNum, refIsFullSha,
      isLowerHex40, jsDisplay, refProbeLockfile, invalidRefMessage, List.lookup]
     try rfl)

end SkillsLock

namespace SkillsLock

/-- Insertion step of the insertion sort that models
`Array.prototype.sort(cmp)` (any comparison sort yields this result on the
duplicate-free keys involved). -/
def insertBy (le : α → α → Bool) (x : α) : List α → List α
  | [] => [x]
  | y :: ys => if le x y then x :: y :: ys else y :: insertBy le x ys

/-- Insertion sort by a boolean comparison. -/
def sortBy (le : α → α → Bool) : List α → List α
  | [] => []
  | x :: xs => insertBy le x (sortBy le xs)

theorem insertBy_perm (le : α → α → Bool) (x : α) (l : List α) :
    (insertBy le x l).Perm (x :: l) := by
  induction l with
  | nil => exact List.Perm.refl _
  | cons y ys ih =>
    unfold insertBy
    by_cases h : le x y
    · simp [h]
    · simp only [h, if_false, Bool.false_eq_true]
      exact (ih.cons y).trans (List.Perm.swap x y ys)

theorem sortBy_perm (le : α → α → Bool) (l : List α) : (sortBy le l).Perm l := by
  induction l with
  | nil => exact List.Perm.refl _
  | cons x xs ih =>
    exact (insertBy_perm le x (sortBy le xs)).trans (ih.cons x)

theorem mem_sortBy (le : α → α → Bool) (a : α) (l : List α) :
    a ∈ sortBy le l ↔ a ∈ l :=
  (sortBy_perm le l).mem_iff

theorem insertBy_chain (le : α → α → Bool)
    (htot : ∀ a b, le a b || le b a) (x : α) (l : List α)
    (h : l.Chain' (fun a b => le a b = true)) :
    (insertBy le x l).Chain' (fun a b => le a b = true) := by
  induction l with
  | nil => simp [insertBy]
  | cons y ys ih =>
    unfold insertBy
    by_cases hxy : le x y
    · simp only [hxy, if_true]
      exact h.cons hxy
    · simp only [hxy, if_false, Bool.false_eq_true]
      have hyx : le y x = true := by
        have := htot x y
        rcases Bool.or_eq_true_iff.1 this with h1 | h1
        · exact absurd h1 hxy
        · exact h1
      have hys := (List.chain'_cons'.1 h).2
      have hins := ih hys
      refine List.chain'_cons'.2 ⟨?_, hins⟩
      intro z hz
      cases ys with
      | nil => simp [insertBy] at hz; subst hz; exact hyx
      | cons w ws =>
        unfold insertBy at hz
        by_cases hxw : le x w
        · simp only [hxw, if_true, List.head?_cons, Option.mem_def, Option.some.injEq] at hz
          subst hz; exact hyx
        · simp only [hxw, if_false, Bool.false_eq_true, List.head?_cons, Option.mem_def,
            Option.some.injEq] at hz
          subst hz
          exact (List.chain'_cons.1 h).1

theorem sortBy_chain (le : α → α → Bool) (htot : ∀ a b, le a b || le b a)
    (l : List α) : (sortBy le l).Chain' (fun a b => le a b = true) := by
  induction l with
  | nil => simp [sortBy]
  | cons x xs ih => exact insertBy_chain le htot x (sortBy le xs) ih

theorem insertBy_of_le (le : α → α → Bool) (x : α) (l : List α)
    (h : ∀ z, l.head? = some z → le x z = true) : insertBy le x l = x :: l := by
  cases l with
  | nil => rfl
  | cons y ys => simp [insertBy, h y rfl]

theorem sortBy_eq_self (le : α → α → Bool) (l : List α)
    (h : l.Chain' (fun a b => le a b = true)) : sortBy le l = l := by
  induction l with
  | nil => rfl
  | cons x xs ih =>
    have hxs := (List.chain'_cons'.1 h).2
    unfold sortBy
    rw [ih hxs]
    exact insertBy_of_le le x xs (List.chain'_cons'.1 h).1

end SkillsLock

namespace SkillsLock

/-- Primary collation weight of a character: case-insensitive character
value.  Models root-locale `localeCompare` strength 1 for the ASCII range
(uppercase folds onto the lowercase 32 positions higher). -/
def collPrimary (c : Char) : Nat :=
  if c.isUpper then c.toNat + 32 else c.toNat

/-- Secondary collation weight: at equal primary weights, lowercase sorts
before uppercase. -/
def collSecondary (c : Char) : Nat :=
  if c.isUpper then 1 else 0

/-- Lexicographic comparison of weight sequences. -/
def weightsLe : List Nat → List Nat → Bool
  | [], _ => true
  | _ :: _, [] => false
  | a :: as, b :: bs => if a < b then true else if a == b then weightsLe as bs else false

/-- Model of `a.localeCompare(b) <= 0`: compare primary weight sequences,
breaking full ties with the secondary (case) sequence. -/
def localeLe (a b : String) : Bool :=
  if a.data.map collPrimary == b.data.map collPrimary then
    weightsLe (a.data.map collSecondary) (b.data.map collSecondary)
  else
    weightsLe (a.data.map collPrimary) (b.data.map collPrimary)

theorem weightsLe_total (x y : List Nat) : weightsLe x y || weightsLe y x := by
  induction x generalizing y with
  | nil => simp [weightsLe]
  | cons a as ih =>
    cases y with
    | nil => simp [weightsLe]
    | cons b bs =>
      rcases Nat.lt_trichotomy a b with h | h | h
      · simp [weightsLe, h]
      · subst h
        simpa [weightsLe] using ih bs
      · simp [weightsLe, h, Nat.lt_asymm h, Nat.ne_of_gt h, (Nat.ne_of_gt h).symm]

theorem weightsLe_antisymm (x y : List Nat) (h1 : weightsLe x y = true)
    (h2 : weightsLe y x = true) : x = y := by
  induction x generalizing y with
  | nil =>
    cases y with
    | nil => rfl
    | cons b bs => simp [weightsLe] at h2
  | cons a as ih =>
    cases y with
    | nil => simp [weightsLe] at h1
    | cons b bs =>
      rcases Nat.lt_trichotomy a b with h | h | h
      · have hba : ¬ b < a := by omega
        have hne : (b == a) = false := by simp; omega
        simp [weightsLe, hba, hne] at h2
      · subst h
        simp [weightsLe] at h1 h2
        rw [ih bs h1 h2]
      · have hab : ¬ a < b := by omega
        have hne : (a == b) = false := by simp; omega
        simp [weightsLe, hab, hne] at h1

theorem weightsLe_trans (x y z : List Nat) (h1 : weightsLe x y = true)
    (h2 : weightsLe y z = true) : weightsLe x z = true := by
  induction x generalizing y z with
  | nil => simp [weightsLe]
  | cons a as ih =>
    cases y with
    | nil => simp [weightsLe] at h1
    | cons b bs =>
      cases z with
      | nil => simp [weightsLe] at h2
      | cons c cs =>
        simp only [weightsLe] at h1 h2 ⊢
        rcases Nat.lt_trichotomy a b with hab | hab | hab
        · rcases Nat.lt_trichotomy b c with hbc | hbc | hbc
          · simp [Nat.lt_trans hab hbc]
          · subst hbc; simp [hab]
          · simp [hbc, Nat.lt_asymm hbc, Nat.ne_of_gt hbc] at h2
        · subst hab
          rcases Nat.lt_trichotomy a c with hbc | hbc | hbc
          · simp [hbc]
          · subst hbc
            simp only [Nat.lt_irrefl, if_false, beq_self_eq_true, if_true] at h1 h2 ⊢
            exact ih bs cs h1 h2
          · simp [hbc, Nat.lt_asymm hbc, Nat.ne_of_gt hbc] at h2
        · simp [hab, Nat.lt_asymm hab, Nat.ne_of_gt hab] at h1

theorem collWeights_inj (c d : Char) (hp : collPrimary c = collPrimary d)
    (hs : collSecondary c = collSecondary d) : c = d := by
  have hnat : c.toNat = d.toNat := by
    simp only [collPrimary, collSecondary] at hp hs
    by_cases hc : c.isUpper <;> by_cases hd : d.isUpper <;>
      simp [hc, hd] at hp hs <;> omega
  exact Char.eq_of_val_eq (UInt32.ext hnat)

theorem map_inj_of_two_maps {α β γ : Type} (f : α → β) (g : α → γ)
    (hinj : ∀ x y, f x = f y → g x = g y → x = y) :
    ∀ (as bs : List α), as.map f = bs.map f → as.map g = bs.map g → as = bs := by
  intro as
  induction as with
  | nil => intro bs h1 _; cases bs with
    | nil => rfl
    | cons b bs => simp at h1
  | cons a as ih =>
    intro bs h1 h2
    cases bs with
    | nil => simp at h1
    | cons b bs =>
      simp only [List.map_cons, List.cons.injEq] at h1 h2
      rw [hinj a b h1.1 h2.1, ih bs h1.2 h2.2]

theorem localeLe_total (a b : String) : localeLe a b || localeLe b a := by
  unfold localeLe
  by_cases h : a.data.map collPrimary = b.data.map collPrimary
  · rw [if_pos (beq_iff_eq.mpr h), if_pos (beq_iff_eq.mpr h.symm)]
    exact weightsLe_total _ _
  · rw [if_neg (by simp only [beq_iff_eq]; exact h),
      if_neg (by simp only [beq_iff_eq]; exact fun hh => h hh.symm)]
    exact weightsLe_total _ _

theorem localeLe_antisymm (a b : String) (h1 : localeLe a b = true)
    (h2 : localeLe b a = true) : a = b := by
  unfold localeLe at h1 h2
  by_cases h : a.data.map collPrimary = b.data.map collPrimary
  · rw [if_pos (beq_iff_eq.mpr h)] at h1
    rw [if_pos (beq_iff_eq.mpr h.symm)] at h2
    have hsec := weightsLe_antisymm _ _ h1 h2
    have hdata := map_inj_of_two_maps collPrimary collSecondary collWeights_inj
      a.data b.data h hsec
    cases a; cases b; simp_all
  · rw [if_neg (by simp only [beq_iff_eq]; exact h)] at h1
    rw [if_neg (by simp only [beq_iff_eq]; exact fun hh => h hh.symm)] at h2
    exact absurd (weightsLe_antisymm _ _ h1 h2) h

theorem localeLe_trans (a b c : String) (h1 : localeLe a b = true)
    (h2 : localeLe b c = true) : localeLe a c = true := by
  unfold localeLe at h1 h2 ⊢
  by_cases hab : a.data.map collPrimary = b.data.map collPrimary <;>
    by_cases hbc : b.data.map collPrimary = c.data.map collPrimary
  · rw [if_pos (beq_iff_eq.mpr hab)] at h1
    rw [if_pos (beq_iff_eq.mpr hbc)] at h2
    rw [if_pos (beq_iff_eq.mpr (hab.trans hbc))]
    exact weightsLe_trans _ _ _ h1 h2
  · have hac : ¬ a.data.map collPrimary = c.data.map collPrimary :=
      fun hh => hbc (hab.symm.trans hh)
    rw [if_neg (by simp only [beq_iff_eq]; exact hbc)] at h2
    rw [if_neg (by simp only [beq_iff_eq]; exact hac)]
    rw [hab]
    exact h2
  · have hac : ¬ a.data.map collPrimary = c.data.map collPrimary :=
      fun hh => hab (hh.trans hbc.symm)
    rw [if_neg (by simp only [beq_iff_eq]; exact hab)] at h1
    rw [if_neg (by simp only [beq_iff_eq]; exact hac)]
    rw [← hbc]
    exact h1
  · rw [if_neg (by simp only [beq_iff_eq]; exact hab)] at h1
    rw [if_neg (by simp only [beq_iff_eq]; exact hbc)] at h2
    by_cases hac : a.data.map collPrimary = c.data.map collPrimary
    · exfalso
      rw [← hac] at h2
      exact hab (weightsLe_antisymm _ _ h1 h2)
    · rw [if_neg (by simp only [beq_iff_eq]; exact hac)]
      exact weightsLe_trans _ _ _ h1 h2

end SkillsLock

namespace SkillsLock

/-- The comparator `([a],[b]) => a.localeCompare(b)` used by `writeLockfile`
on skills entries (keyed pairs compared by name). -/
def entryNameLe {β : Type} (p q : String × β) : Bool := localeLe p.1 q.1

theorem chain_pairwise_entryNameLe {β : Type} (l : List (String × β))
    (h : l.Chain' (fun p q => entryNameLe p q = true)) :
    l.Pairwise (fun p q => entryNameLe p q = true) := by
  haveI : IsTrans (String × β) (fun p q => entryNameLe p q = true) :=
    ⟨fun a b c h1 h2 => localeLe_trans _ _ _ h1 h2⟩
  exact List.chain'_iff_pairwise.mp h

theorem sorted_keyed_perm_eq {β : Type} (l : List (String × β)) :
    ∀ (l' : List (String × β)), l.Perm l' →
    l.Chain' (fun p q => entryNameLe p q = true) →
    l'.Chain' (fun p q => entryNameLe p q = true) →
    (l.map Prod.fst).Nodup → l = l' := by
  induction l with
  | nil =>
    intro l' hp _ _ _
    exact (hp.symm.eq_nil).symm
  | cons a t ih =>
    intro l' hp hs hs' hnd
    cases l' with
    | nil => exact absurd hp.eq_nil (by simp)
    | cons b t' =>
      have hab : a = b := by
        have ha : a ∈ b :: t' := hp.mem_iff.mp (List.mem_cons_self a t)
        have hb : b ∈ a :: t := hp.symm.mem_iff.mp (List.mem_cons_self b t')
        rcases List.mem_cons.mp ha with h1 | h1
        · exact h1
        rcases List.mem_cons.mp hb with h2 | h2
        · exact h2.symm
        have hpw := chain_pairwise_entryNameLe _ hs
        have hpw' := chain_pairwise_entryNameLe _ hs'
        have h3 : entryNameLe a b = true := (List.pairwise_cons.mp hpw).1 b h2
        have h4 : entryNameLe b a = true := (List.pairwise_cons.mp hpw').1 a h1
        have hkey : a.1 = b.1 := localeLe_antisymm _ _ h3 h4
        exact List.inj_on_of_nodup_map hnd (List.mem_cons_self a t)
          (List.mem_cons_of_mem a h2) hkey
      subst hab
      have htail := hp.cons_inv
      have hndt : (t.map Prod.fst).Nodup := by
        simp only [List.map_cons, List.nodup_cons] at hnd
        exact hnd.2
      rw [ih t' htail (List.chain'_cons'.mp hs).2 (List.chain'_cons'.mp hs').2 hndt]

theorem sortBy_entryNameLe_perm_eq {β : Type} (es es' : List (String × β))
    (h : es.Perm es') (hnd : (es.map Prod.fst).Nodup) :
    sortBy entryNameLe es = sortBy entryNameLe es' := by
  refine sorted_keyed_perm_eq _ _ ?_ ?_ ?_ ?_
  · exact (sortBy_perm _ es).trans (h.trans (sortBy_perm _ es').symm)
  · exact sortBy_chain _ (fun p q => localeLe_total p.1 q.1) es
  · exact sortBy_chain _ (fun p q => localeLe_total p.1 q.1) es'
  · exact (((sortBy_perm entryNameLe es).map Prod.fst).nodup_iff).mpr hnd

theorem lookup_mem {β : Type} (l : List (String × β)) (n : String) (v : β)
    (h : l.lookup n = some v) : (n, v) ∈ l := by
  induction l with
  | nil => simp [List.lookup] at h
  | cons hd tl ih =>
    obtain ⟨k, u⟩ := hd
    rw [List.lookup] at h
    by_cases hk : n = k
    · subst hk
      simp only [beq_self_eq_true, Option.some.injEq] at h
      subst h
      exact List.mem_cons_self _ _
    · have : (n == k) = false := beq_eq_false_iff_ne.mpr hk
      rw [this] at h
      exact List.mem_cons_of_mem _ (ih h)

theorem mem_lookup_of_nodup {β : Type} (l : List (String × β)) (n : String)
    (v : β) (hnd : (l.map Prod.fst).Nodup) (h : (n, v) ∈ l) :
    l.lookup n = some v := by
  induction l with
  | nil => simp at h
  | cons hd tl ih =>
    obtain ⟨k, u⟩ := hd
    simp only [List.map_cons, List.nodup_cons] at hnd
    rcases List.mem_cons.mp h with h1 | h1
    · rw [Prod.mk.injEq] at h1
      obtain ⟨rfl, rfl⟩ := h1
      simp [List.lookup]
    · have hk : ¬ n = k := by
        rintro rfl
        exact hnd.1 (List.mem_map.mpr ⟨(n, v), h1, rfl⟩)
      rw [List.lookup, beq_eq_false_iff_ne.mpr hk]
      exact ih hnd.2 h1

theorem lookup_eq_none_iff_not_mem {β : Type} (l : List (String × β)) (n : String) :
    l.lookup n = none ↔ n ∉ l.map Prod.fst := by
  induction l with
  | nil => simp [List.lookup]
  | cons hd tl ih =>
    obtain ⟨k, u⟩ := hd
    by_cases hk : n = k
    · subst hk
      simp [List.lookup]
    · rw [List.lookup, beq_eq_false_iff_ne.mpr hk]
      simp [ih, hk]

theorem lookup_eq_of_perm {β : Type} (l l' : List (String × β))
    (hp : l.Perm l') (hnd : (l.map Prod.fst).Nodup) (n : String) :
    l.lookup n = l'.lookup n := by
  have hnd' : (l'.map Prod.fst).Nodup := ((hp.map Prod.fst).nodup_iff).mp hnd
  cases h : l.lookup n with
  | none =>
    symm
    rw [lookup_eq_none_iff_not_mem] at h ⊢
    exact fun hm => h ((hp.map Prod.fst).symm.mem_iff.mp hm)
  | some v =>
    symm
    exact mem_lookup_of_nodup l' n v hnd' (hp.mem_iff.mp (lookup_mem l n v h))

/-- `Object.entries(lockfile.skills).sort(([a],[b]) => a.localeCompare(b))`
as built by `writeLockfile`. -/
def sortedSkillsEntries (lockfile : JSVal) : List (String × JSVal) :=
  sortBy entryNameLe (entriesOf (getProp lockfile "skills"))

/-- The re-ordered document `{ version, skills }` that `writeLockfile`
serialises (`src/lockfile.ts`, lines 35-41). -/
def sortedLockfileDoc (lockfile : JSVal) : JSVal :=
  .obj [("version", getProp lockfile "version"),
        ("skills", .obj (sortedSkillsEntries lockfile))]

/-- `writeLockfile` (`src/lockfile.ts`, lines 29-44): validate first, then
persist the sorted document; `.ok` carries the document that is serialised
to disk. -/
def writeLockfileModel (lockfile : JSVal) : Except String JSVal :=
  match validateLockfile lockfile with
  | .error e => .error e
  | .ok () => .ok (sortedLockfileDoc lockfile)

/-- `readLockfile` on a file whose JSON text parses to `v`: parse (modelled
by handing over `v`, since `JSON.parse` inverts the exact `JSON.stringify`
output), validate, and return the parsed document. -/
def readLockfileModel (v : JSVal) : Except String JSVal :=
  match validateLockfile v with
  | .error e => .error e
  | .ok () => .ok v

end SkillsLock

namespace SkillsLock

theorem validateLockfile_sortedDoc (L : JSVal) (hv : validateLockfile L = .ok ()) :
    validateLockfile (sortedLockfileDoc L) = .ok () := by
  rw [validateLockfile_ok_iff] at hv ⊢
  have h1 : getProp (sortedLockfileDoc L) "version" = getProp L "version" := rfl
  have h2 : getProp (sortedLockfileDoc L) "skills" = .obj (sortedSkillsEntries L) := rfl
  simp only [lockfileSchemaOK, h1, h2, Bool.and_eq_true, Bool.not_eq_true'] at hv ⊢
  obtain ⟨⟨⟨⟨⟨hto, hnn⟩, hver⟩, hsk⟩, hsn⟩, hall⟩ := hv
  refine ⟨⟨⟨⟨⟨rfl, rfl⟩, hver⟩, rfl⟩, rfl⟩, ?_⟩
  rw [List.all_eq_true] at hall ⊢
  intro p hp
  refine hall p ?_
  have : p ∈ sortBy entryNameLe (entriesOf (getProp L "skills")) := hp
  exact (mem_sortBy _ _ _).mp this

/-- Claim C5: for every lockfile document that passes validation (with the
JavaScript-object invariant of duplicate-free keys), writing succeeds with
the sorted document, reading that document back succeeds with the identical
document, and the result has the same `version` and the same name-to-entry
mapping as the original (key order not significant). -/
theorem write_read_roundtrip (L : JSVal)
    (hv : validateLockfile L = .ok ())
    (hnd : ((entriesOf (getProp L "skills")).map Prod.fst).Nodup) :
    writeLockfileModel L = .ok (sortedLockfileDoc L) ∧
    readLockfileModel (sortedLockfileDoc L) = .ok (sortedLockfileDoc L) ∧
    getProp (sortedLockfileDoc L) "version" = getProp L "version" ∧
    ∀ n, (entriesOf (getProp (sortedLockfileDoc L) "skills")).lookup n =
         (entriesOf (getProp L "skills")).lookup n := by
  refine ⟨?_, ?_, rfl, ?_⟩
  · unfold writeLockfileModel
    rw [hv]
  · unfold readLockfileModel
    rw [validateLockfile_sortedDoc L hv]
  · intro n
    have hperm : (sortedSkillsEntries L).Perm (entriesOf (getProp L "skills")) :=
      sortBy_perm _ _
    have hnds : ((sortedSkillsEntries L).map Prod.fst).Nodup :=
      ((hperm.map Prod.fst).nodup_iff).mpr hnd
    exact lookup_eq_of_perm _ _ hperm hnds n

/-- A valid two-skill lockfile document with names out of order. -/
def roundtripExample : JSVal :=
  .obj [("version", .num 1),
        ("skills", .obj
          [("b", .obj [("source", .str "s"), ("path", .str "q"),
                       ("ref", .str (String.mk (List.replicate 40 'b')))]),
           ("a", .obj [("source", .str "s"), ("path", .str "p"),
                       ("ref", .str (String.mk (List.replicate 40 'a')))])])]

/-- Witness for `write_read_roundtrip` at a concrete lockfile. -/
theorem write_read_roundtrip_witness :
    writeLockfileModel roundtripExample = .ok (sortedLockfileDoc roundtripExample) ∧
    readLockfileModel (sortedLockfileDoc roundtripExample) =
      .ok (sortedLockfileDoc roundtripExample) ∧
    getProp (sortedLockfileDoc roundtripExample) "version" =
      getProp roundtripExample "version" ∧
    (entriesOf (getProp (sortedLockfileDoc roundtripExample) "skills")).lookup "a" =
      (entriesOf (getProp roundtripExample "skills")).lookup "a" := by
  obtain ⟨h1, h2, h3, h4⟩ := write_read_roundtrip roundtripExample rfl (by decide)
  exact ⟨h1, h2, h3, h4 "a"⟩

end SkillsLock

namespace SkillsLock

/-- `n` spaces of indentation. -/
def indentSpaces (n : Nat) : List Char := List.replicate n ' '

/-- JSON escaping of one character of a string literal body (the escapes
relevant to lockfile content; `JSON.stringify` escapes the same characters). -/
def jsonEscapeChar (c : Char) : List Char :=
  if c = '"' then ['\\', '"']
  else if c = '\\' then ['\\', '\\']
  else if c = '\n' then ['\\', 'n']
  else if c = '\t' then ['\\', 't']
  else if c = '\r' then ['\\', 'r']
  else [c]

/-- A JSON string literal. -/
def jsonQuote (s : String) : List Char :=
  '"' :: (s.data.map jsonEscapeChar).flatten ++ ['"']

mutual

/-- `JSON.stringify(v, null, indent)` at current indentation `ind`, as a
character list.  (`undef` never occurs in a serialised lockfile document.) -/
def jsonStringify (ind : Nat) : JSVal → List Char
  | .undef => []
  | .nul => "null".data
  | .bool true => "true".data
  | .bool false => "false".data
  | .num n => (toString n).data
  | .str s => jsonQuote s
  | .arr [] => "[]".data
  | .arr (x :: xs) =>
    "[\n".data ++ jsonItems (ind + 2) (x :: xs) ++ "\n".data ++ indentSpaces ind ++ "]".data
  | .obj [] => "\x7b\x7d".data
  | .obj (f :: fs) =>
    "\x7b\n".data ++ jsonFields (ind + 2) (f :: fs) ++ "\n".data ++ indentSpaces ind ++ "\x7d".data

/-- Array items, one per line, comma-separated. -/
def jsonItems (ind : Nat) : List JSVal → List Char
  | [] => []
  | [x] => indentSpaces ind ++ jsonStringify ind x
  | x :: y :: rest =>
    indentSpaces ind ++ jsonStringify ind x ++ ",\n".data ++ jsonItems ind (y :: rest)

/-- Object fields, one per line, comma-separated, `"key": value`. -/
def jsonFields (ind : Nat) : List (String × JSVal) → List Char
  | [] => []
  | [(k, v)] => indentSpaces ind ++ jsonQuote k ++ ": ".data ++ jsonStringify ind v
  | (k, v) :: g :: rest =>
    indentSpaces ind ++ jsonQuote k ++ ": ".data ++ jsonStringify ind v ++ ",\n".data ++
      jsonFields ind (g :: rest)

end

/-- The exact text `writeLockfile` writes:
`JSON.stringify(sorted, null, 2) + "\n"`. -/
def writeLockfileText (lockfile : JSVal) : List Char :=
  jsonStringify 0 (sortedLockfileDoc lockfile) ++ ['\n']

theorem jsonStringify_obj_getLast (ind : Nat) (fs : List (String × JSVal)) :
    (jsonStringify ind (.obj fs)).getLast? = some '\x7d' := by
  cases fs with
  | nil => simp [jsonStringify]
  | cons f fs =>
    have h : jsonStringify ind (.obj (f :: fs)) =
        ("\x7b\n".data ++ jsonFields (ind + 2) (f :: fs) ++ "\n".data ++
          indentSpaces ind) ++ ['\x7d'] := by
      simp [jsonStringify, List.append_assoc]
    rw [h]
    exact List.getLast?_concat _

/-- The document `roundtripExample` re-ordered, as written to disk. -/
def roundtripExampleSwapped : JSVal :=
  .obj [("version", .num 1),
        ("skills", .obj
          [("a", .obj [("source", .str "s"), ("path", .str "p"),
                       ("ref", .str (String.mk (List.replicate 40 'a')))]),
           ("b", .obj [("source", .str "s"), ("path", .str "q"),
                       ("ref", .str (String.mk (List.replicate 40 'b')))])])]

/-- The exact serialised form of `roundtripExample`. -/
def roundtripExampleText : List Char :=
  ("\x7b\n  \"version\": 1,\n  \"skills\": \x7b\n    \"a\": \x7b\n      \"source\": \"s\",\n      \"path\": \"p\",\n      \"ref\": \"" ++
   String.mk (List.replicate 40 'a') ++
   "\"\n    \x7d,\n    \"b\": \x7b\n      \"source\": \"s\",\n      \"path\": \"q\",\n      \"ref\": \"" ++
   String.mk (List.replicate 40 'b') ++
   "\"\n    \x7d\n  \x7d\n\x7d\n").data

set_option maxRecDepth 20000 in
/-- Claim C9: `writeLockfile` serialises a document whose skills keys are in
ascending name order regardless of in-memory insertion order, with 2-space
indentation and exactly one trailing newline (the serialised body ends in
`}`, and a single `\n` is appended). -/
theorem write_lockfile_serialisation (L : JSVal) :
    ((sortedSkillsEntries L).map Prod.fst).Chain' (fun a b => localeLe a b = true) ∧
    (∀ L' : JSVal,
      (entriesOf (getProp L "skills")).Perm (entriesOf (getProp L' "skills")) →
      ((entriesOf (getProp L "skills")).map Prod.fst).Nodup →
      sortedSkillsEntries L = sortedSkillsEntries L') ∧
    writeLockfileText L = jsonStringify 0 (sortedLockfileDoc L) ++ ['\n'] ∧
    (jsonStringify 0 (sortedLockfileDoc L)).getLast? = some '\x7d' ∧
    writeLockfileText roundtripExampleSwapped = roundtripExampleText ∧
    writeLockfileText roundtripExample = roundtripExampleText := by
  refine ⟨?_, ?_, rfl, ?_, ?_, ?_⟩
  · rw [List.chain'_map]
    exact sortBy_chain _ (fun p q => localeLe_total p.1 q.1) _
  · intro L' hperm hnd
    exact sortBy_entryNameLe_perm_eq _ _ hperm hnd
  · exact jsonStringify_obj_getLast 0 _
  · have hs : sortedLockfileDoc roundtripExampleSwapped = roundtripExampleSwapped := rfl
    rw [writeLockfileText, hs]
    simp only [roundtripExampleSwapped, jsonStringify, jsonFields]
    decide
  · have hs : sortedLockfileDoc roundtripExample = roundtripExampleSwapped := rfl
    rw [writeLockfileText, hs]
    simp only [roundtripExampleSwapped, jsonStringify, jsonFields]
    decide

end SkillsLock

namespace SkillsLock

/-- Witness for `write_lockfile_serialisation`: the two insertion orders of
the same two skills serialise to the same sorted entry list. -/
theorem write_lockfile_serialisation_witness :
    sortedSkillsEntries roundtripExample = sortedSkillsEntries roundtripExampleSwapped := by
  exact (write_lockfile_serialisation roundtripExample).2.1 roundtripExampleSwapped
    (List.Perm.swap _ _ _) (by decide)

end SkillsLock

namespace SkillsLock

/-- `l` starts with the pattern `pat` (`String.prototype.startsWith`). -/
def leadsWith (pat : List Char) : List Char → Bool
  | l =>
    match pat, l with
    | [], _ => true
    | _ :: _, [] => false
    | p :: ps, c :: cs => p == c && leadsWith ps cs

/-- `String.prototype.split` on a single separator character: the result is
always nonempty, and a leading non-separator character is prepended to the
first piece. -/
def splitOnChar (sep : Char) : List Char → List (List Char)
  | [] => [[]]
  | c :: cs =>
    let r := splitOnChar sep cs
    if c = sep then [] :: r else (c :: r.headD []) :: r.tail

/-- `String.prototype.indexOf` for a substring pattern: the first index at
which `pat` occurs, if any. -/
def findSubstrIdx (pat : List Char) : List Char → Option Nat
  | [] => if leadsWith pat [] then some 0 else none
  | c :: cs =>
    if leadsWith pat (c :: cs) then some 0
    else (findSubstrIdx pat cs).map (· + 1)

/-- `p.endsWith(".git") ? p.slice(0, -4) : p`. -/
def stripDotGit (l : List Char) : List Char :=
  if ".git".data.isSuffixOf l then l.take (l.length - 4) else l

/-- The characters that terminate the authority part of a URL. -/
def isAuthEnd (c : Char) : Bool :=
  c = '/' || c = '\\' || c = '?' || c = '#'

/-- The authority minus credentials: everything after the last `@`. -/
def afterLastAt (l : List Char) : List Char :=
  (l.reverse.takeWhile (fun c => c ≠ '@')).reverse

/-- Model of WHATWG `new URL` for an absolute http(s) URL, restricted to the
parts `expandSource` consumes, applied to the text after the scheme: the
authority runs to the first of `/ \ ? #`; credentials before the last `@`
and a `:port` suffix are dropped; the hostname is lowercased (ASCII); an
empty host is a parse error; the pathname runs to the first of `? #`, with
`\` normalised to `/` and an empty path reading as `/`.  (Percent-encoding,
IPv6 hosts and dot-segment normalisation are outside the model.) -/
def parseHttpUrl (rest : List Char) : Option (String × List Char) :=
  let auth := rest.takeWhile (fun c => !isAuthEnd c)
  let tail := rest.dropWhile (fun c => !isAuthEnd c)
  let host := (afterLastAt auth).takeWhile (fun c => c ≠ ':')
  if host = [] then none
  else
    let path := (tail.takeWhile (fun c => c ≠ '?' && c ≠ '#')).map
      (fun c => if c = '\\' then '/' else c)
    some (String.mk (host.map Char.toLower), if path = [] then ['/'] else path)

/-- One character of the shorthand character class `[a-zA-Z0-9_.-]`. -/
def shorthandChar (c : Char) : Bool :=
  c.isAlpha || c.isDigit || c = '_' || c = '.' || c = '-'

/-- The shorthand regular expression
`^[a-zA-Z0-9_.-]+\/[a-zA-Z0-9_.-]+$`. -/
def isShorthand (l : List Char) : Bool :=
  match splitOnChar '/' l with
  | [a, b] => !a.isEmpty && !b.isEmpty && a.all shorthandChar && b.all shorthandChar
  | _ => false

/-- The GitLab browser tree-URL marker: slash, dash, slash, t, r, e, e,
slash. -/
def treeMarker : List Char := "/-/tree/".data

/-- The host dispatch of `expandSource` applied to a successfully parsed
http(s) URL (`url.hostname` / `url.pathname`). -/
def expandParsedHttp (source : String) (host : String) (path : List Char) : String :=
  if host = "github.com" then
    match splitOnChar '/' path with
    | _ :: owner :: repo :: _ =>
      if owner ≠ [] ∧ repo ≠ [] then
        String.mk ("https://github.com/".data ++ owner ++ '/' ::
          (stripDotGit repo ++ ".git".data))
      else source
    | _ => source
  else if host = "gitlab.com" then
    let repoPath := match findSubstrIdx treeMarker path with
      | some i => path.take i
      | none => path
    String.mk ("https://gitlab.com".data ++ stripDotGit repoPath ++ ".git".data)
  else source

/-- `expandSource` from `src/resolver.ts` (lines 12-53): `git@` identifiers
pass through; http(s) URLs are normalised by host (`github.com` keeps the
first two path segments and re-appends `.git`; `gitlab.com` truncates the
path at a GitLab tree marker (the eight characters "slash, dash, slash,
t, r, e, e, slash") and appends `.git` if absent; anything else
passes through, as do unparseable URLs); a bare `owner/repo` shorthand
expands to the GitHub clone URL; everything else passes through. -/
def expandSource (source : String) : String :=
  if leadsWith "git@".data source.data then source
  else if leadsWith "http://".data source.data || leadsWith "https://".data source.data then
    let rest := if leadsWith "https://".data source.data then source.data.drop 8
                else source.data.drop 7
    match parseHttpUrl rest with
    | none => source
    | some (host, path) => expandParsedHttp source host path
  else if isShorthand source.data then
    String.mk ("https://github.com/".data ++ source.data ++ ".git".data)
  else source

end SkillsLock

namespace SkillsLock

theorem leadsWith_iff (pat l : List Char) :
    leadsWith pat l = true ↔ ∃ t, l = pat ++ t := by
  induction pat generalizing l with
  | nil => simp [leadsWith]
  | cons p ps ih =>
    cases l with
    | nil => simp [leadsWith]
    | cons c cs =>
      simp only [leadsWith, Bool.and_eq_true, beq_iff_eq, ih, List.cons_append,
        List.cons.injEq]
      constructor
      · rintro ⟨rfl, t, rfl⟩
        exact ⟨t, rfl, rfl⟩
      · rintro ⟨t, rfl, rfl⟩
        exact ⟨rfl, t, rfl⟩

theorem leadsWith_append_left {pat x : List Char} (y : List Char)
    (h : leadsWith pat x = true) : leadsWith pat (x ++ y) = true := by
  rcases (leadsWith_iff _ _).mp h with ⟨t, rfl⟩
  exact (leadsWith_iff _ _).mpr ⟨t ++ y, by simp⟩

theorem leadsWith_of_append_long {pat x y : List Char} (hlen : pat.length ≤ x.length)
    (h : leadsWith pat (x ++ y) = true) : leadsWith pat x = true := by
  rcases (leadsWith_iff _ _).mp h with ⟨t, heq⟩
  refine (leadsWith_iff _ _).mpr ⟨t.take (x.length - pat.length), ?_⟩
  have h1 : (x ++ y).take x.length = x := List.take_left x y
  rw [heq, List.take_append_eq_append_take, List.take_of_length_le hlen] at h1
  exact h1.symm

theorem leadsWith_false_of_short {pat l : List Char} (h : l.length < pat.length) :
    leadsWith pat l = false := by
  by_contra hc
  rw [Bool.not_eq_false] at hc
  rcases (leadsWith_iff _ _).mp hc with ⟨t, rfl⟩
  simp at h

theorem mem_of_leadsWith {pat l : List Char} {c : Char} (hc : c ∈ pat)
    (h : leadsWith pat l = true) : c ∈ l := by
  rcases (leadsWith_iff _ _).mp h with ⟨t, rfl⟩
  exact List.mem_append_left _ hc

theorem takeWhile_eq_self_of_all {p : Char → Bool} {l : List Char}
    (h : ∀ c ∈ l, p c = true) : l.takeWhile p = l := by
  induction l with
  | nil => rfl
  | cons c cs ih =>
    rw [List.takeWhile_cons, h c (List.mem_cons_self _ _)]
    simp only [if_true]
    rw [ih (fun x hx => h x (List.mem_cons_of_mem _ hx))]

theorem takeWhile_append_cons {p : Char → Bool} {H rest : List Char} {c0 : Char}
    (hH : ∀ c ∈ H, p c = true) (hc : p c0 = false) :
    (H ++ c0 :: rest).takeWhile p = H := by
  induction H with
  | nil => simp [List.takeWhile_cons, hc]
  | cons c cs ih =>
    rw [List.cons_append, List.takeWhile_cons, hH c (List.mem_cons_self _ _)]
    simp only [if_true]
    rw [ih (fun x hx => hH x (List.mem_cons_of_mem _ hx))]

theorem dropWhile_append_cons {p : Char → Bool} {H rest : List Char} {c0 : Char}
    (hH : ∀ c ∈ H, p c = true) (hc : p c0 = false) :
    (H ++ c0 :: rest).dropWhile p = c0 :: rest := by
  induction H with
  | nil => simp [List.dropWhile_cons, hc]
  | cons c cs ih =>
    rw [List.cons_append, List.dropWhile_cons, hH c (List.mem_cons_self _ _)]
    simp only [if_true]
    exact ih (fun x hx => hH x (List.mem_cons_of_mem _ hx))

theorem splitOnChar_ne_nil (sep : Char) (l : List Char) : splitOnChar sep l ≠ [] := by
  cases l with
  | nil => simp [splitOnChar]
  | cons c cs =>
    unfold splitOnChar
    by_cases h : c = sep <;> simp [h]

theorem splitOnChar_of_not_mem {sep : Char} {l : List Char} (hs : sep ∉ l) :
    splitOnChar sep l = [l] := by
  induction l with
  | nil => rfl
  | cons c cs ih =>
    have hc : ¬ c = sep := fun hh => hs (hh ▸ List.mem_cons_self _ _)
    have hcs : sep ∉ cs := fun hh => hs (List.mem_cons_of_mem _ hh)
    unfold splitOnChar
    simp only [hc, if_false]
    rw [ih hcs]
    rfl

theorem splitOnChar_append_sep {sep : Char} {o : List Char} (rest : List Char)
    (ho : sep ∉ o) :
    splitOnChar sep (o ++ sep :: rest) = o :: splitOnChar sep rest := by
  induction o with
  | nil => simp [splitOnChar]
  | cons c os ih =>
    have hc : ¬ c = sep := fun hh => ho (hh ▸ List.mem_cons_self _ _)
    have hos : sep ∉ os := fun hh => ho (List.mem_cons_of_mem _ hh)
    rw [List.cons_append, splitOnChar.eq_2, if_neg hc, ih hos]
    rfl

theorem not_mem_of_mem_splitOnChar {sep : Char} {l piece : List Char}
    (h : piece ∈ splitOnChar sep l) : sep ∉ piece := by
  induction l generalizing piece with
  | nil =>
    simp [splitOnChar] at h
    subst h
    simp
  | cons c cs ih =>
    unfold splitOnChar at h
    cases hsp : splitOnChar sep cs with
    | nil => exact absurd hsp (splitOnChar_ne_nil sep cs)
    | cons p ps =>
      rw [hsp] at h
      by_cases hc : c = sep
      · simp only [hc, if_true] at h
        rcases List.mem_cons.mp h with h1 | h1
        · subst h1; simp
        · exact ih (hsp ▸ h1)
      · simp only [hc, if_false, List.headD_cons, List.tail_cons] at h
        rcases List.mem_cons.mp h with h1 | h1
        · subst h1
          intro hmem
          rcases List.mem_cons.mp hmem with h2 | h2
          · exact hc h2.symm
          · exact ih (hsp ▸ List.mem_cons_self p ps) h2
        · exact ih (hsp ▸ List.mem_cons_of_mem p h1)

theorem mem_of_mem_splitOnChar {sep : Char} {l piece : List Char} {c : Char}
    (h : piece ∈ splitOnChar sep l) (hc : c ∈ piece) : c ∈ l := by
  induction l generalizing piece with
  | nil =>
    simp [splitOnChar] at h
    subst h
    simp at hc
  | cons d ds ih =>
    unfold splitOnChar at h
    cases hsp : splitOnChar sep ds with
    | nil => exact absurd hsp (splitOnChar_ne_nil sep ds)
    | cons p ps =>
      rw [hsp] at h
      by_cases hd : d = sep
      · simp only [hd, if_true] at h
        rcases List.mem_cons.mp h with h1 | h1
        · subst h1; simp at hc
        · exact List.mem_cons_of_mem _ (ih (hsp ▸ h1) hc)
      · simp only [hd, if_false, List.headD_cons, List.tail_cons] at h
        rcases List.mem_cons.mp h with h1 | h1
        · subst h1
          rcases List.mem_cons.mp hc with h2 | h2
          · exact h2 ▸ List.mem_cons_self _ _
          · exact List.mem_cons_of_mem _ (ih (hsp ▸ List.mem_cons_self p ps) h2)
        · exact List.mem_cons_of_mem _ (ih (hsp ▸ List.mem_cons_of_mem p h1) hc)

theorem findSubstrIdx_none {pat l : List Char} (h : findSubstrIdx pat l = none) :
    ∀ j, leadsWith pat (l.drop j) = false := by
  induction l with
  | nil =>
    intro j
    unfold findSubstrIdx at h
    by_cases hl : leadsWith pat [] = true
    · rw [if_pos hl] at h
      exact absurd h (by simp)
    · rw [Bool.not_eq_true] at hl
      simpa using hl
  | cons c cs ih =>
    unfold findSubstrIdx at h
    by_cases hl : leadsWith pat (c :: cs) = true
    · rw [if_pos hl] at h
      exact absurd h (by simp)
    · rw [if_neg hl] at h
      rw [Option.map_eq_none'] at h
      intro j
      cases j with
      | zero =>
        rw [Bool.not_eq_true] at hl
        simpa using hl
      | succ j => exact ih h j

theorem findSubstrIdx_some {pat l : List Char} {i : Nat}
    (h : findSubstrIdx pat l = some i) :
    leadsWith pat (l.drop i) = true ∧ ∀ j, j < i → leadsWith pat (l.drop j) = false := by
  induction l generalizing i with
  | nil =>
    unfold findSubstrIdx at h
    by_cases hl : leadsWith pat [] = true
    · simp only [hl, if_true, Option.some.injEq] at h
      subst h
      exact ⟨hl, fun j hj => absurd hj (Nat.not_lt_zero j)⟩
    · simp [hl] at h
  | cons c cs ih =>
    unfold findSubstrIdx at h
    by_cases hl : leadsWith pat (c :: cs) = true
    · simp only [hl, if_true, Option.some.injEq] at h
      subst h
      exact ⟨hl, fun j hj => absurd hj (Nat.not_lt_zero j)⟩
    · rw [if_neg hl] at h
      rcases Option.map_eq_some'.mp h with ⟨i', hi', rfl⟩
      obtain ⟨h1, h2⟩ := ih hi'
      refine ⟨h1, ?_⟩
      intro j hj
      cases j with
      | zero =>
        rw [Bool.not_eq_true] at hl
        simpa using hl
      | succ j => exact h2 j (Nat.lt_of_succ_lt_succ hj)

theorem afterLastAt_of_not_mem {l : List Char} (h : '@' ∉ l) : afterLastAt l = l := by
  unfold afterLastAt
  rw [takeWhile_eq_self_of_all, List.reverse_reverse]
  intro c hc
  have : c ≠ '@' := fun hh => h (hh ▸ List.mem_reverse.mp hc)
  simp [this]

end SkillsLock


namespace SkillsLock

theorem map_eq_self_of_fix {f : Char → Char} {l : List Char}
    (h : ∀ c ∈ l, f c = c) : l.map f = l := by
  induction l with
  | nil => rfl
  | cons c cs ih =>
    rw [List.map_cons, h c (List.mem_cons_self _ _),
      ih (fun x hx => h x (List.mem_cons_of_mem _ hx))]

theorem head_dropWhile_false {q : Char → Bool} {l : List Char} {c : Char}
    (h : (l.dropWhile q).head? = some c) : q c = false := by
  induction l with
  | nil => simp [List.dropWhile] at h
  | cons d ds ih =>
    rw [List.dropWhile_cons] at h
    by_cases hd : q d
    · rw [if_pos hd] at h
      exact ih h
    · rw [if_neg hd] at h
      simp only [List.head?_cons, Option.some.injEq] at h
      subst h
      exact Bool.not_eq_true _ ▸ hd

theorem head_of_takeWhile_cons {q : Char → Bool} {l ds : List Char} {d : Char}
    (h : l.takeWhile q = d :: ds) : l.head? = some d := by
  cases l with
  | nil => simp [List.takeWhile] at h
  | cons e es =>
    rw [List.takeWhile_cons] at h
    by_cases he : q e
    · rw [if_pos he] at h
      simp only [List.cons.injEq] at h
      rw [List.head?_cons, h.1]
    · rw [if_neg he] at h
      simp at h

theorem isAuthEnd_cases {d : Char} (h : isAuthEnd d = true) :
    d = '/' ∨ d = '\\' ∨ d = '?' ∨ d = '#' := by
  unfold isAuthEnd at h
  simp only [Bool.or_eq_true, decide_eq_true_eq] at h
  tauto

theorem parseHttpUrl_eval (H p : List Char)
    (hH1 : ∀ c ∈ H, isAuthEnd c = false)
    (hH2 : '@' ∉ H) (hH3 : ':' ∉ H) (hH4 : H ≠ [])
    (hp : ∃ p', p = '/' :: p')
    (hpc : ∀ c ∈ p, c ≠ '?' ∧ c ≠ '#' ∧ c ≠ '\\') :
    parseHttpUrl (H ++ p) = some (String.mk (H.map Char.toLower), p) := by
  obtain ⟨p', rfl⟩ := hp
  have htake : (H ++ '/' :: p').takeWhile (fun c => !isAuthEnd c) = H :=
    takeWhile_append_cons (fun c hc => by simp [hH1 c hc]) (by simp [isAuthEnd])
  have hdrop : (H ++ '/' :: p').dropWhile (fun c => !isAuthEnd c) = '/' :: p' :=
    dropWhile_append_cons (fun c hc => by simp [hH1 c hc]) (by simp [isAuthEnd])
  have hhost : H.takeWhile (fun c => decide (c ≠ ':')) = H :=
    takeWhile_eq_self_of_all (fun c hc => by
      simp only [decide_eq_true_eq]
      exact fun hh => hH3 (hh ▸ hc))
  have hptake : ('/' :: p').takeWhile (fun c => decide (c ≠ '?') && decide (c ≠ '#')) =
      '/' :: p' :=
    takeWhile_eq_self_of_all (fun c hc => by
      obtain ⟨h1, h2, _⟩ := hpc c hc
      simp [h1, h2])
  have hpmap : ('/' :: p').map (fun c => if c = '\\' then '/' else c) = '/' :: p' :=
    map_eq_self_of_fix (fun c hc => by
      obtain ⟨_, _, h3⟩ := hpc c hc
      simp [h3])
  unfold parseHttpUrl
  simp only [htake, hdrop, afterLastAt_of_not_mem hH2, hhost, hptake, hpmap,
    if_neg hH4]
  simp

theorem parseHttpUrl_path_props {rest : List Char} {h : String} {p : List Char}
    (hp : parseHttpUrl rest = some (h, p)) :
    (∃ p', p = '/' :: p') ∧ (∀ c ∈ p, c ≠ '?' ∧ c ≠ '#' ∧ c ≠ '\\') := by
  unfold parseHttpUrl at hp
  by_cases hh : (afterLastAt (rest.takeWhile fun c => !isAuthEnd c)).takeWhile
      (fun c => decide (c ≠ ':')) = []
  · rw [if_pos hh] at hp
    exact absurd hp (by simp)
  · rw [if_neg hh] at hp
    simp only [Option.some.injEq, Prod.mk.injEq] at hp
    obtain ⟨-, hpath⟩ := hp
    by_cases hempty : ((rest.dropWhile (fun c => !isAuthEnd c)).takeWhile
        (fun c => decide (c ≠ '?') && decide (c ≠ '#'))).map
        (fun c => if c = '\\' then '/' else c) = []
    · rw [if_pos hempty] at hpath
      subst hpath
      refine ⟨⟨[], rfl⟩, ?_⟩
      intro c hc
      simp only [List.mem_singleton] at hc
      subst hc
      exact ⟨by decide, by decide, by decide⟩
    · rw [if_neg hempty] at hpath
      subst hpath
      constructor
      · cases hq : (rest.dropWhile (fun c => !isAuthEnd c)).takeWhile
            (fun c => decide (c ≠ '?') && decide (c ≠ '#')) with
        | nil => rw [hq] at hempty; simp at hempty
        | cons d ds =>
          have hqd : (decide (d ≠ '?') && decide (d ≠ '#')) = true :=
            @List.mem_takeWhile_imp Char (fun c => decide (c ≠ '?') && decide (c ≠ '#'))
              (rest.dropWhile (fun c => !isAuthEnd c)) d
              (hq ▸ List.mem_cons_self d ds)
          have hdhead : (rest.dropWhile (fun c => !isAuthEnd c)).head? = some d :=
            head_of_takeWhile_cons hq
          have hdq : (!isAuthEnd d) = false := head_dropWhile_false hdhead
          have hdauth : isAuthEnd d = true := by simpa using hdq
          simp only [decide_eq_true_eq, Bool.and_eq_true] at hqd
          have hd : d = '/' ∨ d = '\\' := by
            rcases isAuthEnd_cases hdauth with h1 | h1 | h1 | h1
            · exact Or.inl h1
            · exact Or.inr h1
            · exact absurd h1 hqd.1
            · exact absurd h1 hqd.2
          refine ⟨ds.map (fun c => if c = '\\' then '/' else c), ?_⟩
          rcases hd with h1 | h1 <;> simp [h1]
      · intro c hc
        rcases List.mem_map.mp hc with ⟨c', hc', rfl⟩
        have hqc : (decide (c' ≠ '?') && decide (c' ≠ '#')) = true :=
          @List.mem_takeWhile_imp Char (fun c => decide (c ≠ '?') && decide (c ≠ '#'))
            (rest.dropWhile (fun c => !isAuthEnd c)) c' hc'
        simp only [decide_eq_true_eq, Bool.and_eq_true] at hqc
        by_cases hb : c' = '\\'
        · subst hb
          refine ⟨by decide, by decide, by decide⟩
        · rw [if_neg hb]
          exact ⟨hqc.1, hqc.2, hb⟩

end SkillsLock

namespace SkillsLock

/-- The text handed to the URL parser: the input minus its scheme. -/
def schemeRest (s : String) : List Char :=
  if leadsWith "https://".data s.data then s.data.drop 8 else s.data.drop 7

theorem expandSource_git_at {s : String}
    (h : leadsWith "git@".data s.data = true) : expandSource s = s := by
  unfold expandSource
  rw [if_pos h]

theorem expandSource_url {s : String}
    (hgit : leadsWith "git@".data s.data = false)
    (hurl : (leadsWith "http://".data s.data || leadsWith "https://".data s.data) = true) :
    expandSource s = match parseHttpUrl (schemeRest s) with
      | none => s
      | some (host, path) => expandParsedHttp s host path := by
  unfold expandSource schemeRest
  rw [if_neg (by simp [hgit]), if_pos hurl]

theorem expandSource_fallthrough {s : String}
    (hgit : leadsWith "git@".data s.data = false)
    (hurl : (leadsWith "http://".data s.data || leadsWith "https://".data s.data) = false)
    (hsh : isShorthand s.data = false) : expandSource s = s := by
  unfold expandSource
  rw [if_neg (by simp [hgit]), if_neg (by simp [hurl]), if_neg (by simp [hsh])]

theorem expandSource_shorthand_branch {s : String}
    (hgit : leadsWith "git@".data s.data = false)
    (hurl : (leadsWith "http://".data s.data || leadsWith "https://".data s.data) = false)
    (hsh : isShorthand s.data = true) :
    expandSource s = String.mk ("https://github.com/".data ++ s.data ++ ".git".data) := by
  unfold expandSource
  rw [if_neg (by simp [hgit]), if_neg (by simp [hurl]), if_pos hsh]

theorem expandParsedHttp_github {s : String} {path o r : List Char}
    {more : List (List Char)}
    (hsplit : splitOnChar '/' path = [] :: o :: r :: more)
    (ho : o ≠ []) (hr : r ≠ []) :
    expandParsedHttp s "github.com" path =
      String.mk ("https://github.com/".data ++ o ++ '/' ::
        (stripDotGit r ++ ".git".data)) := by
  unfold expandParsedHttp
  rw [if_pos rfl, hsplit]
  exact if_pos ⟨ho, hr⟩

theorem expandParsedHttp_gitlab {s : String} {path : List Char} :
    expandParsedHttp s "gitlab.com" path =
      String.mk ("https://gitlab.com".data ++
        stripDotGit (match findSubstrIdx treeMarker path with
          | some i => path.take i
          | none => path) ++ ".git".data) := by
  unfold expandParsedHttp
  rw [if_neg (by decide), if_pos rfl]

theorem expandParsedHttp_other {s : String} {host : String} {path : List Char}
    (h1 : host ≠ "github.com") (h2 : host ≠ "gitlab.com") :
    expandParsedHttp s host path = s := by
  unfold expandParsedHttp
  rw [if_neg h1, if_neg h2]

end SkillsLock

namespace SkillsLock

theorem splitOnChar_cons_sep (sep : Char) (cs : List Char) :
    splitOnChar sep (sep :: cs) = [] :: splitOnChar sep cs := by
  rw [splitOnChar.eq_2, if_pos rfl]

theorem git_at_false_of_http {s : String}
    (h : (leadsWith "http://".data s.data || leadsWith "https://".data s.data) = true) :
    leadsWith "git@".data s.data = false := by
  by_contra hcon
  rw [Bool.not_eq_false] at hcon
  rcases (leadsWith_iff _ _).mp hcon with ⟨t, ht⟩
  rcases Bool.or_eq_true_iff.mp h with h1 | h1 <;>
    rcases (leadsWith_iff _ _).mp h1 with ⟨u, hu⟩ <;>
  · rw [ht] at hu
    have := congrArg List.head? hu
    simp at this

theorem expandSource_github_url (o r tail : List Char)
    (ho : o ≠ []) (hr : r ≠ [])
    (hoc : ∀ c ∈ o, c ≠ '/' ∧ c ≠ '?' ∧ c ≠ '#' ∧ c ≠ '\\')
    (hrc : ∀ c ∈ r, c ≠ '/' ∧ c ≠ '?' ∧ c ≠ '#' ∧ c ≠ '\\')
    (htail : tail = [] ∨ ∃ t, tail = '/' :: t)
    (htc : ∀ c ∈ tail, c ≠ '?' ∧ c ≠ '#' ∧ c ≠ '\\') :
    expandSource (String.mk ("https://github.com/".data ++ (o ++ '/' :: (r ++ tail)))) =
      String.mk ("https://github.com/".data ++ o ++ '/' ::
        (stripDotGit r ++ ".git".data)) := by
  set s := String.mk ("https://github.com/".data ++ (o ++ '/' :: (r ++ tail))) with hsdef
  have hdata : s.data = "https://github.com/".data ++ (o ++ '/' :: (r ++ tail)) := rfl
  have hhttps : leadsWith "https://".data s.data = true := by
    refine (leadsWith_iff _ _).mpr ⟨"github.com/".data ++ (o ++ '/' :: (r ++ tail)), ?_⟩
    rw [hdata]
    have hlit : "https://github.com/".data = "https://".data ++ "github.com/".data := rfl
    rw [hlit, List.append_assoc]
  have hurl : (leadsWith "http://".data s.data || leadsWith "https://".data s.data) = true := by
    rw [hhttps]; simp
  have hgit : leadsWith "git@".data s.data = false := git_at_false_of_http hurl
  have hrest : schemeRest s = "github.com".data ++ ('/' :: (o ++ '/' :: (r ++ tail))) := by
    unfold schemeRest
    rw [if_pos hhttps, hdata]
    have hlit : "https://github.com/".data =
        "https://".data ++ ("github.com".data ++ ['/']) := rfl
    rw [hlit, List.append_assoc, List.drop_append_of_le_length (by simp)]
    simp
  have hpath : ∀ c ∈ ('/' :: (o ++ '/' :: (r ++ tail))), c ≠ '?' ∧ c ≠ '#' ∧ c ≠ '\\' := by
    intro c hc
    rcases List.mem_cons.mp hc with h1 | h1
    · subst h1; exact ⟨by decide, by decide, by decide⟩
    rcases List.mem_append.mp h1 with h2 | h2
    · obtain ⟨-, a, b, c'⟩ := hoc c h2
      exact ⟨a, b, c'⟩
    rcases List.mem_cons.mp h2 with h3 | h3
    · subst h3; exact ⟨by decide, by decide, by decide⟩
    rcases List.mem_append.mp h3 with h4 | h4
    · obtain ⟨-, a, b, c'⟩ := hrc c h4
      exact ⟨a, b, c'⟩
    · exact htc c h4
  have hparse : parseHttpUrl (schemeRest s) =
      some ("github.com", '/' :: (o ++ '/' :: (r ++ tail))) := by
    rw [hrest, parseHttpUrl_eval "github.com".data ('/' :: (o ++ '/' :: (r ++ tail)))
      (by decide) (by decide) (by decide) (by decide) ⟨_, rfl⟩ hpath]
    rfl
  rw [expandSource_url hgit hurl, hparse]
  have hsplit : ∃ more, splitOnChar '/' ('/' :: (o ++ '/' :: (r ++ tail))) =
      [] :: o :: r :: more := by
    have ho' : '/' ∉ o := fun hm => (hoc _ hm).1 rfl
    have hr' : '/' ∉ r := fun hm => (hrc _ hm).1 rfl
    rw [splitOnChar_cons_sep, splitOnChar_append_sep _ ho']
    rcases htail with rfl | ⟨t, rfl⟩
    · rw [List.append_nil, splitOnChar_of_not_mem hr']
      exact ⟨[], rfl⟩
    · rw [splitOnChar_append_sep _ hr']
      exact ⟨splitOnChar '/' t, rfl⟩
  obtain ⟨more, hsplit⟩ := hsplit
  exact expandParsedHttp_github hsplit ho hr

end SkillsLock

namespace SkillsLock

theorem expandSource_gitlab_url (pth : List Char)
    (hp : ∃ p', pth = '/' :: p')
    (hpc : ∀ c ∈ pth, c ≠ '?' ∧ c ≠ '#' ∧ c ≠ '\\') :
    expandSource (String.mk ("https://gitlab.com".data ++ pth)) =
      String.mk ("https://gitlab.com".data ++
        stripDotGit (match findSubstrIdx treeMarker pth with
          | some i => pth.take i
          | none => pth) ++ ".git".data) := by
  set s := String.mk ("https://gitlab.com".data ++ pth) with hsdef
  have hdata : s.data = "https://gitlab.com".data ++ pth := rfl
  have hhttps : leadsWith "https://".data s.data = true := by
    refine (leadsWith_iff _ _).mpr ⟨"gitlab.com".data ++ pth, ?_⟩
    rw [hdata]
    have hlit : "https://gitlab.com".data = "https://".data ++ "gitlab.com".data := rfl
    rw [hlit, List.append_assoc]
  have hurl : (leadsWith "http://".data s.data || leadsWith "https://".data s.data) = true := by
    rw [hhttps]; simp
  have hgit : leadsWith "git@".data s.data = false := git_at_false_of_http hurl
  have hrest : schemeRest s = "gitlab.com".data ++ pth := by
    unfold schemeRest
    rw [if_pos hhttps, hdata]
    have hlit : "https://gitlab.com".data = "https://".data ++ "gitlab.com".data := rfl
    rw [hlit, List.append_assoc, List.drop_append_of_le_length (by simp)]
    simp
  have hparse : parseHttpUrl (schemeRest s) = some ("gitlab.com", pth) := by
    rw [hrest, parseHttpUrl_eval "gitlab.com".data pth
      (by decide) (by decide) (by decide) (by decide) hp hpc]
    rfl
  rw [expandSource_url hgit hurl, hparse]
  exact expandParsedHttp_gitlab

theorem expandSource_shorthand (o r : List Char)
    (ho : o ≠ []) (hr : r ≠ [])
    (hoc : ∀ c ∈ o, shorthandChar c = true) (hrc : ∀ c ∈ r, shorthandChar c = true) :
    expandSource (String.mk (o ++ '/' :: r)) =
      String.mk ("https://github.com/".data ++ (o ++ '/' :: r) ++ ".git".data) := by
  set s := String.mk (o ++ '/' :: r) with hsdef
  have hdata : s.data = o ++ '/' :: r := rfl
  have hnotmem : ∀ c : Char, shorthandChar c = false → c ≠ '/' → c ∉ s.data := by
    intro c hcf hcs hmem
    rw [hdata] at hmem
    rcases List.mem_append.mp hmem with h1 | h1
    · rw [hoc c h1] at hcf
      exact absurd hcf (by decide)
    · rcases List.mem_cons.mp h1 with h2 | h2
      · exact hcs h2
      · rw [hrc c h2] at hcf
        exact absurd hcf (by decide)
  have hgit : leadsWith "git@".data s.data = false := by
    by_contra hcon
    rw [Bool.not_eq_false] at hcon
    exact hnotmem '@' (by decide) (by decide) (mem_of_leadsWith (by decide) hcon)
  have hurl : (leadsWith "http://".data s.data || leadsWith "https://".data s.data) = false := by
    rw [Bool.or_eq_false_iff]
    constructor
    · by_contra hcon
      rw [Bool.not_eq_false] at hcon
      exact hnotmem ':' (by decide) (by decide) (mem_of_leadsWith (by decide) hcon)
    · by_contra hcon
      rw [Bool.not_eq_false] at hcon
      exact hnotmem ':' (by decide) (by decide) (mem_of_leadsWith (by decide) hcon)
  have hsh : isShorthand s.data = true := by
    unfold isShorthand
    have ho' : '/' ∉ o := fun hm => absurd (hoc _ hm) (by decide)
    have hr' : '/' ∉ r := fun hm => absurd (hrc _ hm) (by decide)
    rw [hdata, splitOnChar_append_sep _ ho', splitOnChar_of_not_mem hr']
    have hoe : o.isEmpty = false := by
      cases o with
      | nil => exact absurd rfl ho
      | cons _ _ => rfl
    have hre : r.isEmpty = false := by
      cases r with
      | nil => exact absurd rfl hr
      | cons _ _ => rfl
    simp only [hoe, hre, Bool.not_false, Bool.true_and, Bool.and_eq_true,
      List.all_eq_true]
    exact ⟨hoc, hrc⟩
  rw [expandSource_shorthand_branch hgit hurl hsh, hdata]

end SkillsLock

namespace SkillsLock

theorem stripDotGit_append_git (l : List Char) :
    stripDotGit (l ++ ".git".data) = l := by
  unfold stripDotGit
  have hsuf : ".git".data.isSuffixOf (l ++ ".git".data) = true := by
    rw [List.isSuffixOf_iff_suffix]
    exact ⟨l, rfl⟩
  rw [if_pos hsuf]
  have hlen : (l ++ ".git".data).length - 4 = l.length := by simp
  rw [hlen, List.take_left]

theorem mem_stripDotGit {l : List Char} {c : Char} (h : c ∈ stripDotGit l) : c ∈ l := by
  unfold stripDotGit at h
  by_cases hs : ".git".data.isSuffixOf l = true
  · rw [if_pos hs] at h
    exact List.mem_of_mem_take h
  · rw [if_neg hs] at h
    exact h

theorem stripDotGit_eq_take (l : List Char) : ∃ n, stripDotGit l = l.take n := by
  unfold stripDotGit
  by_cases hs : ".git".data.isSuffixOf l = true
  · rw [if_pos hs]
    exact ⟨l.length - 4, rfl⟩
  · rw [if_neg hs]
    exact ⟨l.length, (List.take_length l).symm⟩

/-- No occurrence of the GitLab tree marker anywhere in `l`. -/
def markerFree (l : List Char) : Prop :=
  ∀ j, leadsWith treeMarker (l.drop j) = false

theorem leadsWith_of_take {pat l : List Char} {n j : Nat}
    (h : leadsWith pat ((l.take n).drop j) = true) :
    leadsWith pat (l.drop j) = true := by
  have hd : (l.take n).drop j = (l.drop j).take (n - j) := List.drop_take ..
  rw [hd] at h
  have := leadsWith_append_left ((l.drop j).drop (n - j)) h
  rwa [List.take_append_drop] at this

theorem markerFree_take {l : List Char} (n : Nat) (h : markerFree l) :
    markerFree (l.take n) := by
  intro j
  by_contra hcon
  rw [Bool.not_eq_false] at hcon
  exact absurd (leadsWith_of_take hcon) (by rw [h j]; simp)

theorem markerFree_stripDotGit {l : List Char} (h : markerFree l) :
    markerFree (stripDotGit l) := by
  obtain ⟨n, hn⟩ := stripDotGit_eq_take l
  rw [hn]
  exact markerFree_take n h

theorem findSubstrIdx_none_of_markerFree {l : List Char} (h : markerFree l) :
    findSubstrIdx treeMarker l = none := by
  cases hf : findSubstrIdx treeMarker l with
  | none => rfl
  | some i =>
    have := (findSubstrIdx_some hf).1
    rw [h i] at this
    exact absurd this (by simp)

theorem markerFree_of_findSubstrIdx_none {l : List Char}
    (h : findSubstrIdx treeMarker l = none) : markerFree l :=
  findSubstrIdx_none h

theorem markerFree_take_of_first {l : List Char} {i : Nat}
    (h : findSubstrIdx treeMarker l = some i) : markerFree (l.take i) := by
  intro j
  by_contra hcon
  rw [Bool.not_eq_false] at hcon
  have hj : leadsWith treeMarker (l.drop j) = true := leadsWith_of_take hcon
  by_cases hji : j < i
  · rw [(findSubstrIdx_some h).2 j hji] at hj
    exact absurd hj (by simp)
  · have hd : (l.take i).drop j = [] := by
      apply List.drop_eq_nil_of_le
      have := List.length_take_le i l
      omega
    rw [hd] at hcon
    have : leadsWith treeMarker ([] : List Char) = false := by decide
    rw [this] at hcon
    exact absurd hcon (by simp)

end SkillsLock

namespace SkillsLock

theorem markerFree_append_dotgit {A : List Char} (hA : markerFree A) :
    markerFree (A ++ ".git".data) := by
  intro j
  by_contra hcon
  rw [Bool.not_eq_false] at hcon
  by_cases hj : j ≤ A.length
  · rw [List.drop_append_of_le_length hj] at hcon
    have hdlen : (A.drop j).length = A.length - j := List.length_drop _ _
    by_cases hlen : 8 ≤ (A.drop j).length
    · have h8 : treeMarker.length = 8 := by decide
      have := leadsWith_of_append_long (by omega) hcon
      rw [hA j] at this
      exact absurd this (by simp)
    · rcases (leadsWith_iff _ _).mp hcon with ⟨t, ht⟩
      have hlens : A.length - j + 4 = 8 + t.length := by
        have e1 : (".git".data).length = 4 := by decide
        have e2 : treeMarker.length = 8 := by decide
        have e3 := congrArg List.length ht
        rw [List.length_append, List.length_append, hdlen, e1, e2] at e3
        exact e3
      have h7 : (A.drop j ++ ".git".data)[7]? = treeMarker[7]? := by
        rw [ht, List.getElem?_append_left (by decide)]
      rw [List.getElem?_append_right (by omega), hdlen] at h7
      have hmark : treeMarker[7]? = some '/' := by decide
      rw [hmark] at h7
      rw [hdlen] at hlen
      have hk1 : 4 ≤ A.length - j := by omega
      have hk2 : A.length - j ≤ 7 := by omega
      set k := A.length - j with hk
      interval_cases k <;> exact absurd h7 (by decide)
  · have hj' : j = A.length + (j - A.length) := by omega
    rw [hj', List.drop_append] at hcon
    have h4 : (".git".data).length = 4 := by decide
    have h8 : treeMarker.length = 8 := by decide
    have hshort : leadsWith treeMarker (".git".data.drop (j - A.length)) = false := by
      apply leadsWith_false_of_short
      rw [List.length_drop, h4, h8]
      omega
    rw [hshort] at hcon
    exact absurd hcon (by simp)

end SkillsLock

namespace SkillsLock

theorem expandSource_other_host {s : String} {host : String} {path : List Char}
    (hurl : (leadsWith "http://".data s.data || leadsWith "https://".data s.data) = true)
    (hparse : parseHttpUrl (schemeRest s) = some (host, path))
    (h1 : host ≠ "github.com") (h2 : host ≠ "gitlab.com") :
    expandSource s = s := by
  rw [expandSource_url (git_at_false_of_http hurl) hurl, hparse]
  exact expandParsedHttp_other h1 h2

theorem splitOnChar_eq_single {sep : Char} {l x : List Char}
    (h : splitOnChar sep l = [x]) : l = x := by
  induction l generalizing x with
  | nil =>
    simp only [splitOnChar, List.cons.injEq, and_true] at h
    exact h
  | cons c cs ih =>
    rw [splitOnChar.eq_2] at h
    by_cases hc : c = sep
    · rw [if_pos hc] at h
      simp only [List.cons.injEq] at h
      exact absurd h.2 (splitOnChar_ne_nil sep cs)
    · rw [if_neg hc] at h
      cases hsp : splitOnChar sep cs with
      | nil => exact absurd hsp (splitOnChar_ne_nil sep cs)
      | cons p ps =>
        rw [hsp] at h
        simp only [List.headD_cons, List.tail_cons, List.cons.injEq] at h
        have hcs : cs = p := ih (by rw [hsp, h.2])
        rw [← h.1, hcs]

theorem splitOnChar_eq_pair {sep : Char} {l a b : List Char}
    (h : splitOnChar sep l = [a, b]) : l = a ++ sep :: b := by
  induction l generalizing a with
  | nil => simp [splitOnChar] at h
  | cons c cs ih =>
    rw [splitOnChar.eq_2] at h
    by_cases hc : c = sep
    · rw [if_pos hc] at h
      simp only [List.cons.injEq] at h
      obtain ⟨ha, hb⟩ := h
      rw [← ha, hc, List.nil_append, splitOnChar_eq_single hb]
    · rw [if_neg hc] at h
      cases hsp : splitOnChar sep cs with
      | nil => exact absurd hsp (splitOnChar_ne_nil sep cs)
      | cons p ps =>
        rw [hsp] at h
        simp only [List.headD_cons, List.tail_cons, List.cons.injEq] at h
        obtain ⟨ha, hps⟩ := h
        have hrec : cs = p ++ sep :: b := ih (by rw [hsp, hps])
        rw [← ha, hrec, List.cons_append]

theorem shorthandChar_props {c : Char} (h : shorthandChar c = true) :
    c ≠ '/' ∧ c ≠ '?' ∧ c ≠ '#' ∧ c ≠ '\\' := by
  refine ⟨?_, ?_, ?_, ?_⟩ <;> rintro rfl <;> exact absurd h (by decide)

theorem dotgit_chars {c : Char} (h : c ∈ ".git".data) :
    c ≠ '/' ∧ c ≠ '?' ∧ c ≠ '#' ∧ c ≠ '\\' := by
  have hcases : c = '.' ∨ c = 'g' ∨ c = 'i' ∨ c = 't' := by simpa using h
  rcases hcases with rfl | rfl | rfl | rfl <;>
    exact ⟨by decide, by decide, by decide, by decide⟩

theorem expandSource_gitlab_url_none (pth : List Char)
    (hp : ∃ p', pth = '/' :: p')
    (hpc : ∀ c ∈ pth, c ≠ '?' ∧ c ≠ '#' ∧ c ≠ '\\')
    (hnone : findSubstrIdx treeMarker pth = none) :
    expandSource (String.mk ("https://gitlab.com".data ++ pth)) =
      String.mk ("https://gitlab.com".data ++ stripDotGit pth ++ ".git".data) := by
  rw [expandSource_gitlab_url pth hp hpc, hnone]

theorem expandSource_gitlab_url_first (pth : List Char) (i : Nat)
    (hp : ∃ p', pth = '/' :: p')
    (hpc : ∀ c ∈ pth, c ≠ '?' ∧ c ≠ '#' ∧ c ≠ '\\')
    (hsome : findSubstrIdx treeMarker pth = some i) :
    expandSource (String.mk ("https://gitlab.com".data ++ pth)) =
      String.mk ("https://gitlab.com".data ++ stripDotGit (pth.take i) ++ ".git".data) := by
  rw [expandSource_gitlab_url pth hp hpc, hsome]

theorem expandSource_github_fixed (o rn : List Char) (ho : o ≠ [])
    (hoc : ∀ c ∈ o, c ≠ '/' ∧ c ≠ '?' ∧ c ≠ '#' ∧ c ≠ '\\')
    (hrnc : ∀ c ∈ rn, c ≠ '/' ∧ c ≠ '?' ∧ c ≠ '#' ∧ c ≠ '\\') :
    expandSource (String.mk ("https://github.com/".data ++ o ++ '/' ::
        (rn ++ ".git".data))) =
      String.mk ("https://github.com/".data ++ o ++ '/' :: (rn ++ ".git".data)) := by
  have hr : rn ++ ".git".data ≠ [] := by simp
  have hrc : ∀ c ∈ rn ++ ".git".data, c ≠ '/' ∧ c ≠ '?' ∧ c ≠ '#' ∧ c ≠ '\\' := by
    intro c hc
    rcases List.mem_append.mp hc with h1 | h1
    · exact hrnc c h1
    · exact dotgit_chars h1
  have h := expandSource_github_url o (rn ++ ".git".data) [] ho hr hoc hrc
    (Or.inl rfl) (by simp)
  rw [List.append_nil, stripDotGit_append_git] at h
  have hassoc : "https://github.com/".data ++ o ++ '/' :: (rn ++ ".git".data) =
      "https://github.com/".data ++ (o ++ '/' :: (rn ++ ".git".data)) :=
    List.append_assoc _ _ _
  calc expandSource (String.mk ("https://github.com/".data ++ o ++ '/' ::
        (rn ++ ".git".data)))
      = expandSource (String.mk ("https://github.com/".data ++
          (o ++ '/' :: (rn ++ ".git".data)))) := by rw [hassoc]
    _ = String.mk ("https://github.com/".data ++ o ++ '/' :: (rn ++ ".git".data)) := h

theorem expandSource_gitlab_fixed (nz : List Char)
    (hnz : nz = [] ∨ ∃ t, nz = '/' :: t)
    (hpc : ∀ c ∈ nz, c ≠ '?' ∧ c ≠ '#' ∧ c ≠ '\\')
    (hmf : markerFree nz) :
    expandSource (String.mk ("https://gitlab.com".data ++ nz ++ ".git".data)) =
      String.mk ("https://gitlab.com".data ++ nz ++ ".git".data) := by
  rcases hnz with rfl | ⟨t, rfl⟩
  · decide
  · have hpc' : ∀ c ∈ ('/' :: t) ++ ".git".data, c ≠ '?' ∧ c ≠ '#' ∧ c ≠ '\\' := by
      intro c hc
      rcases List.mem_append.mp hc with h1 | h1
      · exact hpc c h1
      · obtain ⟨-, a, b, c'⟩ := dotgit_chars h1
        exact ⟨a, b, c'⟩
    have hnone : findSubstrIdx treeMarker (('/' :: t) ++ ".git".data) = none :=
      findSubstrIdx_none_of_markerFree (markerFree_append_dotgit hmf)
    have h := expandSource_gitlab_url_none (('/' :: t) ++ ".git".data)
      ⟨t ++ ".git".data, rfl⟩ hpc' hnone
    rw [stripDotGit_append_git] at h
    have hassoc : "https://gitlab.com".data ++ ('/' :: t) ++ ".git".data =
        "https://gitlab.com".data ++ (('/' :: t) ++ ".git".data) :=
      List.append_assoc _ _ _
    rw [hassoc] at h ⊢
    exact h

end SkillsLock

namespace SkillsLock

theorem expandSource_url_none {s : String}
    (hgit : leadsWith "git@".data s.data = false)
    (hurl : (leadsWith "http://".data s.data || leadsWith "https://".data s.data) = true)
    (hparse : parseHttpUrl (schemeRest s) = none) : expandSource s = s := by
  rw [expandSource_url hgit hurl, hparse]

theorem expandSource_url_some {s : String} {host : String} {path : List Char}
    (hgit : leadsWith "git@".data s.data = false)
    (hurl : (leadsWith "http://".data s.data || leadsWith "https://".data s.data) = true)
    (hparse : parseHttpUrl (schemeRest s) = some (host, path)) :
    expandSource s = expandParsedHttp s host path := by
  rw [expandSource_url hgit hurl, hparse]

theorem take_slash_shape (p' : List Char) (n : Nat) :
    ('/' :: p').take n = [] ∨ ∃ t, ('/' :: p').take n = '/' :: t := by
  cases n with
  | zero => exact Or.inl rfl
  | succ m => exact Or.inr ⟨p'.take m, by rw [List.take_succ_cons]⟩

/-- C6: `expandSource` is idempotent: re-applying it to its own output is a
no-op, for every input string. -/
theorem expandSource_idempotent (s : String) :
    expandSource (expandSource s) = expandSource s := by
  by_cases hgit : leadsWith "git@".data s.data = true
  · rw [expandSource_git_at hgit, expandSource_git_at hgit]
  have hgit' : leadsWith "git@".data s.data = false := by
    rwa [Bool.not_eq_true] at hgit
  by_cases hurl : (leadsWith "http://".data s.data ||
      leadsWith "https://".data s.data) = true
  · cases hparse : parseHttpUrl (schemeRest s) with
    | none =>
      have hs := expandSource_url_none hgit' hurl hparse
      rw [hs]
      exact hs
    | some pr =>
      obtain ⟨host, path⟩ := pr
      have hexp := expandSource_url_some hgit' hurl hparse
      obtain ⟨⟨p', hp'⟩, hpc⟩ := parseHttpUrl_path_props hparse
      subst hp'
      by_cases hgh : host = "github.com"
      · subst hgh
        have hsplit : splitOnChar '/' ('/' :: p') = [] :: splitOnChar '/' p' :=
          splitOnChar_cons_sep '/' p'
        cases hsp : splitOnChar '/' p' with
        | nil => exact absurd hsp (splitOnChar_ne_nil _ _)
        | cons o rest =>
          cases rest with
          | nil =>
            have heP : expandParsedHttp s "github.com" ('/' :: p') = s := by
              unfold expandParsedHttp
              rw [if_pos rfl, hsplit, hsp]
            have hs : expandSource s = s := hexp.trans heP
            rw [hs]
            exact hs
          | cons r more =>
            by_cases hor : o ≠ [] ∧ r ≠ []
            · have hout := @expandParsedHttp_github s ('/' :: p') o r more
                (by rw [hsplit, hsp]) hor.1 hor.2
              have hs1 : expandSource s =
                  String.mk ("https://github.com/".data ++ o ++ '/' ::
                    (stripDotGit r ++ ".git".data)) := hexp.trans hout
              have homem : o ∈ splitOnChar '/' ('/' :: p') := by
                rw [hsplit, hsp]
                simp
              have hrmem : r ∈ splitOnChar '/' ('/' :: p') := by
                rw [hsplit, hsp]
                simp
              have hoc : ∀ c ∈ o, c ≠ '/' ∧ c ≠ '?' ∧ c ≠ '#' ∧ c ≠ '\\' := by
                intro c hc
                refine ⟨fun he => not_mem_of_mem_splitOnChar homem (he ▸ hc), ?_⟩
                exact hpc c (mem_of_mem_splitOnChar homem hc)
              have hrnc : ∀ c ∈ stripDotGit r,
                  c ≠ '/' ∧ c ≠ '?' ∧ c ≠ '#' ∧ c ≠ '\\' := by
                intro c hc
                have hcr : c ∈ r := mem_stripDotGit hc
                refine ⟨fun he => not_mem_of_mem_splitOnChar hrmem (he ▸ hcr), ?_⟩
                exact hpc c (mem_of_mem_splitOnChar hrmem hcr)
              have hfix := expandSource_github_fixed o (stripDotGit r) hor.1 hoc hrnc
              rw [hs1]
              exact hfix
            · have heP : expandParsedHttp s "github.com" ('/' :: p') = s := by
                unfold expandParsedHttp
                rw [if_pos rfl, hsplit, hsp]
                exact if_neg hor
              have hs : expandSource s = s := hexp.trans heP
              rw [hs]
              exact hs
      · by_cases hgl : host = "gitlab.com"
        · subst hgl
          cases hfind : findSubstrIdx treeMarker ('/' :: p') with
          | none =>
            have hout : expandParsedHttp s "gitlab.com" ('/' :: p') =
                String.mk ("https://gitlab.com".data ++
                  stripDotGit ('/' :: p') ++ ".git".data) := by
              rw [expandParsedHttp_gitlab, hfind]
            have hs1 := hexp.trans hout
            have hmf : markerFree ('/' :: p') := markerFree_of_findSubstrIdx_none hfind
            obtain ⟨m, hm⟩ := stripDotGit_eq_take ('/' :: p')
            have hnz : stripDotGit ('/' :: p') = [] ∨
                ∃ t, stripDotGit ('/' :: p') = '/' :: t := by
              rw [hm]
              exact take_slash_shape p' m
            have hch : ∀ c ∈ stripDotGit ('/' :: p'),
                c ≠ '?' ∧ c ≠ '#' ∧ c ≠ '\\' :=
              fun c hc => hpc c (mem_stripDotGit hc)
            have hfix := expandSource_gitlab_fixed (stripDotGit ('/' :: p')) hnz hch
              (markerFree_stripDotGit hmf)
            rw [hs1]
            exact hfix
          | some i =>
            have hout : expandParsedHttp s "gitlab.com" ('/' :: p') =
                String.mk ("https://gitlab.com".data ++
                  stripDotGit (('/' :: p').take i) ++ ".git".data) := by
              rw [expandParsedHttp_gitlab, hfind]
            have hs1 := hexp.trans hout
            obtain ⟨m, hm⟩ := stripDotGit_eq_take (('/' :: p').take i)
            rw [List.take_take] at hm
            have hnz : stripDotGit (('/' :: p').take i) = [] ∨
                ∃ t, stripDotGit (('/' :: p').take i) = '/' :: t := by
              rw [hm]
              exact take_slash_shape p' (min m i)
            have hch : ∀ c ∈ stripDotGit (('/' :: p').take i),
                c ≠ '?' ∧ c ≠ '#' ∧ c ≠ '\\' :=
              fun c hc => hpc c (List.mem_of_mem_take (mem_stripDotGit hc))
            have hfix := expandSource_gitlab_fixed (stripDotGit (('/' :: p').take i))
              hnz hch (markerFree_stripDotGit (markerFree_take_of_first hfind))
            rw [hs1]
            exact hfix
        · have hs : expandSource s = s :=
            hexp.trans (expandParsedHttp_other hgh hgl)
          rw [hs]
          exact hs
  · have hurl' : (leadsWith "http://".data s.data ||
        leadsWith "https://".data s.data) = false := by
      rwa [Bool.not_eq_true] at hurl
    by_cases hsh : isShorthand s.data = true
    · have hout := expandSource_shorthand_branch hgit' hurl' hsh
      unfold isShorthand at hsh
      cases hsplit2 : splitOnChar '/' s.data with
      | nil => rw [hsplit2] at hsh; exact absurd hsh (by decide)
      | cons a rest =>
        cases rest with
        | nil => rw [hsplit2] at hsh; exact Bool.noConfusion hsh
        | cons b rest2 =>
          cases rest2 with
          | cons x xs => rw [hsplit2] at hsh; exact Bool.noConfusion hsh
          | nil =>
            rw [hsplit2] at hsh
            have hsh' : (!a.isEmpty && !b.isEmpty && a.all shorthandChar &&
                b.all shorthandChar) = true := hsh
            simp only [Bool.and_eq_true] at hsh'
            obtain ⟨⟨⟨ha1, hb1⟩, ha2⟩, hb2⟩ := hsh'
            have ha : a ≠ [] := by
              intro h
              rw [h] at ha1
              exact absurd ha1 (by decide)
            have hdata : s.data = a ++ '/' :: b := splitOnChar_eq_pair hsplit2
            rw [hdata] at hout
            have heq : "https://github.com/".data ++ (a ++ '/' :: b) ++ ".git".data =
                "https://github.com/".data ++ a ++ '/' :: (b ++ ".git".data) := by
              simp
            rw [heq] at hout
            have hac : ∀ c ∈ a, c ≠ '/' ∧ c ≠ '?' ∧ c ≠ '#' ∧ c ≠ '\\' := by
              intro c hc
              have := List.all_eq_true.mp ha2 c hc
              exact shorthandChar_props this
            have hbc : ∀ c ∈ b, c ≠ '/' ∧ c ≠ '?' ∧ c ≠ '#' ∧ c ≠ '\\' := by
              intro c hc
              have := List.all_eq_true.mp hb2 c hc
              exact shorthandChar_props this
            have hfix := expandSource_github_fixed a b ha hac hbc
            rw [hout]
            exact hfix
    · have hsh' : isShorthand s.data = false := by
        rwa [Bool.not_eq_true] at hsh
      have hs := expandSource_fallthrough hgit' hurl' hsh'
      rw [hs]
      exact hs

end SkillsLock

namespace SkillsLock

/-- C7: `expandSource` maps the bare shorthand `owner/repo` (shorthand
characters only, exactly one slash) to `https://github.com/owner/repo.git`;
for a `github.com` URL it keeps only the first two path segments, discards
any `/tree/<branch>/...` suffix, and appends `.git` if absent (stripping a
pre-existing `.git` first); for a `gitlab.com` URL it truncates the path at
the first GitLab tree marker wherever it occurs — supporting nested
subgroup paths — and appends `.git` if absent; http(s) URLs of any other
host, `git@` identifiers, and any other non-shorthand string pass through
unchanged.  Eight concrete examples instantiate each branch. -/
theorem expandSource_mapping :
    (∀ o r : List Char, o ≠ [] → r ≠ [] →
      (∀ c ∈ o, shorthandChar c = true) → (∀ c ∈ r, shorthandChar c = true) →
      expandSource (String.mk (o ++ '/' :: r)) =
        String.mk ("https://github.com/".data ++ (o ++ '/' :: r) ++ ".git".data)) ∧
    (∀ o r tail : List Char, o ≠ [] → r ≠ [] →
      (∀ c ∈ o, c ≠ '/' ∧ c ≠ '?' ∧ c ≠ '#' ∧ c ≠ '\\') →
      (∀ c ∈ r, c ≠ '/' ∧ c ≠ '?' ∧ c ≠ '#' ∧ c ≠ '\\') →
      (tail = [] ∨ ∃ t, tail = '/' :: t) →
      (∀ c ∈ tail, c ≠ '?' ∧ c ≠ '#' ∧ c ≠ '\\') →
      expandSource (String.mk ("https://github.com/".data ++
          (o ++ '/' :: (r ++ tail)))) =
        String.mk ("https://github.com/".data ++ o ++ '/' ::
          (stripDotGit r ++ ".git".data))) ∧
    (∀ pth : List Char, ∀ i : Nat, (∃ p', pth = '/' :: p') →
      (∀ c ∈ pth, c ≠ '?' ∧ c ≠ '#' ∧ c ≠ '\\') →
      findSubstrIdx treeMarker pth = some i →
      expandSource (String.mk ("https://gitlab.com".data ++ pth)) =
        String.mk ("https://gitlab.com".data ++
          stripDotGit (pth.take i) ++ ".git".data)) ∧
    (∀ pth : List Char, (∃ p', pth = '/' :: p') →
      (∀ c ∈ pth, c ≠ '?' ∧ c ≠ '#' ∧ c ≠ '\\') →
      findSubstrIdx treeMarker pth = none →
      expandSource (String.mk ("https://gitlab.com".data ++ pth)) =
        String.mk ("https://gitlab.com".data ++ stripDotGit pth ++ ".git".data)) ∧
    (∀ s : String, ∀ host : String, ∀ path : List Char,
      (leadsWith "http://".data s.data || leadsWith "https://".data s.data) = true →
      parseHttpUrl (schemeRest s) = some (host, path) →
      host ≠ "github.com" → host ≠ "gitlab.com" → expandSource s = s) ∧
    (∀ s : String, leadsWith "git@".data s.data = true → expandSource s = s) ∧
    (∀ s : String, leadsWith "git@".data s.data = false →
      (leadsWith "http://".data s.data || leadsWith "https://".data s.data) = false →
      isShorthand s.data = false → expandSource s = s) ∧
    expandSource "anthropics/skills" = "https://github.com/anthropics/skills.git" ∧
    expandSource "https://github.com/anthropics/skills/tree/main/document-skills" =
      "https://github.com/anthropics/skills.git" ∧
    expandSource "https://github.com/anthropics/skills" =
      "https://github.com/anthropics/skills.git" ∧
    expandSource "https://gitlab.com/group/subgroup/repo/-/tree/main/skills" =
      "https://gitlab.com/group/subgroup/repo.git" ∧
    expandSource "https://gitlab.com/group/repo" =
      "https://gitlab.com/group/repo.git" ∧
    expandSource "https://git.example.com/owner/repo.git" =
      "https://git.example.com/owner/repo.git" ∧
    expandSource "git@github.com:anthropics/skills.git" =
      "git@github.com:anthropics/skills.git" ∧
    expandSource "not a url" = "not a url" := by
  refine ⟨?_, ?_, ?_, ?_, ?_, ?_, ?_, ?_, ?_, ?_, ?_, ?_, ?_, ?_, ?_⟩
  · exact fun o r ho hr hoc hrc => expandSource_shorthand o r ho hr hoc hrc
  · exact fun o r tail ho hr hoc hrc htail htc =>
      expandSource_github_url o r tail ho hr hoc hrc htail htc
  · exact fun pth i hp hpc hsome => expandSource_gitlab_url_first pth i hp hpc hsome
  · exact fun pth hp hpc hnone => expandSource_gitlab_url_none pth hp hpc hnone
  · exact fun s host path hurl hparse h1 h2 => expandSource_other_host hurl hparse h1 h2
  · exact fun s h => expandSource_git_at h
  · exact fun s h1 h2 h3 => expandSource_fallthrough h1 h2 h3
  · decide
  · decide
  · decide
  · decide
  · decide
  · decide
  · decide
  · decide

theorem expandSource_mapping_witness :
    expandSource (String.mk ("abc".data ++ '/' :: "def".data)) =
      String.mk ("https://github.com/".data ++ ("abc".data ++ '/' :: "def".data) ++
        ".git".data) :=
  expandSource_mapping.1 "abc".data "def".data (by decide) (by decide)
    (by decide) (by decide)

end SkillsLock

namespace SkillsLock

/-- The `SKILL_METADATA_FILE` constant from `src/installer.ts`: the sidecar
metadata filename that `computeSkillHash` skips at every level of its walk. -/
def sidecarName : List Char := ".skills-lock".data

/-- The default `Array.prototype.sort` comparator applied by
`computeSkillHash` to each `readdir` listing, modelled as code-point
lexicographic order on names (which agrees with the UTF-16 code-unit order
on the Basic Multilingual Plane, and in particular on ASCII names). -/
def nameLe : List Char → List Char → Bool
  | [], _ => true
  | _ :: _, [] => false
  | a :: as, b :: bs =>
    if a.toNat < b.toNat then true
    else if b.toNat < a.toNat then false
    else nameLe as bs

/-- A directory tree as seen by the hash walk: a file is its byte content
(bytes modelled as characters), a directory is its list of named entries. -/
inductive FS where
  | file (content : List Char)
  | dir (entries : List (List Char × FS))

/-- Directory entries are sorted by name only. -/
def entryLe (a b : List Char × FS) : Bool := nameLe a.1 b.1

/-- `prefix ? prefix + "/" + entry : entry` from the walk. -/
def relPath (pre n : List Char) : List Char :=
  if pre = [] then n else pre ++ '/' :: n

mutual

/-- One level of the `walk` of `computeSkillHash` (`src/installer.ts`
lines 18-33): list the directory, sort the names, then process each
non-sidecar entry in order. -/
def walkDir (pre : List Char) (es : List (List Char × FS)) : List Char :=
  walkSorted pre (sortBy entryLe es)
termination_by (sizeOf es, 1)
decreasing_by
  have hs : sizeOf (sortBy entryLe es) = sizeOf es :=
    (sortBy_perm entryLe es).sizeOf_eq_sizeOf
  simp only [hs]
  exact Prod.Lex.right _ (by omega)

/-- The body of the walk's loop over a sorted listing: a `.skills-lock`
entry is skipped entirely; a file contributes `file:<relPath>\n`, its
content, and `\n` to the hash stream; a directory recurses with the
extended relative path. -/
def walkSorted (pre : List Char) : List (List Char × FS) → List Char
  | [] => []
  | (n, FS.file c) :: rest =>
    (if n = sidecarName then []
     else "file:".data ++ relPath pre n ++ '\n' :: (c ++ ['\n'])) ++
      walkSorted pre rest
  | (n, FS.dir es) :: rest =>
    (if n = sidecarName then [] else walkDir (relPath pre n) es) ++
      walkSorted pre rest
termination_by l => (sizeOf l, 0)
decreasing_by
  all_goals exact Prod.Lex.left _ _ (by simp <;> omega)

end

/-- `computeSkillHash` from `src/installer.ts` (lines 15-37) on the entry
list of the skill directory.  The SHA-256 hex digest of the accumulated
byte stream is modelled by the stream itself — an injective stand-in, so
that two hashes are equal exactly when the streams fed to the digest are
equal (ideal collision-free hashing). -/
def computeSkillHash (es : List (List Char × FS)) : List Char :=
  "sha256:".data ++ walkDir [] es

/-- A well-formed on-disk name: nonempty, no path separator, no newline. -/
def wfName (n : List Char) : Bool :=
  !n.isEmpty && decide ('/' ∉ n) && decide ('\n' ∉ n)

mutual

/-- Well-formedness of a tree: every directory below has well-formed,
pairwise-distinct entry names. -/
def wfTree : FS → Bool
  | FS.file _ => true
  | FS.dir es => wfEntries es
termination_by t => (sizeOf t, 0)
decreasing_by
  all_goals exact Prod.Lex.left _ _ (by simp <;> omega)

/-- Well-formedness of a directory listing: names are well-formed and
pairwise distinct, and every subtree is well-formed. -/
def wfEntries : List (List Char × FS) → Bool
  | [] => true
  | (n, t) :: rest =>
    wfName n && !(rest.any (fun e => e.1 == n)) && wfTree t && wfEntries rest
termination_by l => (sizeOf l, 1)
decreasing_by
  all_goals exact Prod.Lex.left _ _ (by simp <;> omega)

end

mutual

/-- Erase every entry named `.skills-lock`, at every depth. -/
def pruneTree : FS → FS
  | FS.file c => FS.file c
  | FS.dir es => FS.dir (pruneEntries es)
termination_by t => (sizeOf t, 0)
decreasing_by
  all_goals exact Prod.Lex.left _ _ (by simp <;> omega)

/-- Erase every entry named `.skills-lock` from a listing, recursively. -/
def pruneEntries : List (List Char × FS) → List (List Char × FS)
  | [] => []
  | (n, t) :: rest =>
    if n = sidecarName then pruneEntries rest
    else (n, pruneTree t) :: pruneEntries rest
termination_by l => (sizeOf l, 1)
decreasing_by
  all_goals exact Prod.Lex.left _ _ (by simp <;> omega)

end

end SkillsLock

namespace SkillsLock

theorem nameLe_total (x y : List Char) : nameLe x y || nameLe y x := by
  induction x generalizing y with
  | nil => simp [nameLe]
  | cons a as ih =>
    cases y with
    | nil => simp [nameLe]
    | cons b bs =>
      rcases Nat.lt_trichotomy a.toNat b.toNat with h | h | h
      · simp [nameLe, h]
      · have hab : a = b := Char.eq_of_val_eq (UInt32.ext h)
        subst hab
        simp only [nameLe, Nat.lt_irrefl, if_false]
        simpa using ih bs
      · simp [nameLe, h, Nat.lt_asymm h]

theorem nameLe_antisymm (x y : List Char) (h1 : nameLe x y = true)
    (h2 : nameLe y x = true) : x = y := by
  induction x generalizing y with
  | nil =>
    cases y with
    | nil => rfl
    | cons b bs => simp [nameLe] at h2
  | cons a as ih =>
    cases y with
    | nil => simp [nameLe] at h1
    | cons b bs =>
      rcases Nat.lt_trichotomy a.toNat b.toNat with h | h | h
      · rw [nameLe, if_neg (by omega : ¬ b.toNat < a.toNat), if_pos h] at h2
        exact Bool.noConfusion h2
      · have hab : a = b := Char.eq_of_val_eq (UInt32.ext h)
        subst hab
        simp only [nameLe, Nat.lt_irrefl, if_false] at h1 h2
        rw [ih bs h1 h2]
      · rw [nameLe, if_neg (by omega : ¬ a.toNat < b.toNat), if_pos h] at h1
        exact Bool.noConfusion h1

theorem nameLe_trans (x y z : List Char) (h1 : nameLe x y = true)
    (h2 : nameLe y z = true) : nameLe x z = true := by
  induction x generalizing y z with
  | nil => simp [nameLe]
  | cons a as ih =>
    cases y with
    | nil => simp [nameLe] at h1
    | cons b bs =>
      cases z with
      | nil => simp [nameLe] at h2
      | cons c cs =>
        rcases Nat.lt_trichotomy a.toNat b.toNat with hab | hab | hab
        · rcases Nat.lt_trichotomy b.toNat c.toNat with hbc | hbc | hbc
          · rw [nameLe, if_pos (Nat.lt_trans hab hbc)]
          · have e2 : b = c := Char.eq_of_val_eq (UInt32.ext hbc)
            subst e2
            rw [nameLe, if_pos hab]
          · rw [nameLe, if_neg (by omega : ¬ b.toNat < c.toNat), if_pos hbc] at h2
            exact Bool.noConfusion h2
        · have e1 : a = b := Char.eq_of_val_eq (UInt32.ext hab)
          subst e1
          rcases Nat.lt_trichotomy a.toNat c.toNat with hac | hac | hac
          · rw [nameLe, if_pos hac]
          · have e2 : a = c := Char.eq_of_val_eq (UInt32.ext hac)
            subst e2
            simp only [nameLe, Nat.lt_irrefl, if_false] at h1 h2 ⊢
            exact ih bs cs h1 h2
          · rw [nameLe, if_neg (by omega : ¬ a.toNat < c.toNat), if_pos hac] at h2
            exact Bool.noConfusion h2
        · rw [nameLe, if_neg (by omega : ¬ a.toNat < b.toNat), if_pos hab] at h1
          exact Bool.noConfusion h1

/-- Canonical form: two sorted arrangements of the same entries with
pairwise-distinct keys are equal, for any total, key-antisymmetric,
transitive boolean comparison on keys. -/
theorem keyed_sorted_perm_eq {κ β : Type} (le : κ → κ → Bool)
    (htot : ∀ a b, le a b || le b a)
    (hanti : ∀ a b, le a b = true → le b a = true → a = b)
    (htrans : ∀ a b c, le a b = true → le b c = true → le a c = true) :
    ∀ (l l' : List (κ × β)), l.Perm l' →
    l.Chain' (fun p q => le p.1 q.1 = true) →
    l'.Chain' (fun p q => le p.1 q.1 = true) →
    (l.map Prod.fst).Nodup → l = l' := by
  intro l
  induction l with
  | nil =>
    intro l' hp _ _ _
    exact (hp.symm.eq_nil).symm
  | cons a t ih =>
    intro l' hp hs hs' hnd
    haveI : IsTrans (κ × β) (fun p q => le p.1 q.1 = true) :=
      ⟨fun p q r h1 h2 => htrans _ _ _ h1 h2⟩
    cases l' with
    | nil => exact absurd hp.eq_nil (by simp)
    | cons b t' =>
      have hab : a = b := by
        have ha : a ∈ b :: t' := hp.mem_iff.mp (List.mem_cons_self a t)
        have hb : b ∈ a :: t := hp.symm.mem_iff.mp (List.mem_cons_self b t')
        rcases List.mem_cons.mp ha with h1 | h1
        · exact h1
        rcases List.mem_cons.mp hb with h2 | h2
        · exact h2.symm
        have hpw := List.chain'_iff_pairwise.mp hs
        have hpw' := List.chain'_iff_pairwise.mp hs'
        have h3 : le a.1 b.1 = true := (List.pairwise_cons.mp hpw).1 b h2
        have h4 : le b.1 a.1 = true := (List.pairwise_cons.mp hpw').1 a h1
        have hkey : a.1 = b.1 := hanti _ _ h3 h4
        exact List.inj_on_of_nodup_map hnd (List.mem_cons_self a t)
          (List.mem_cons_of_mem a h2) hkey
      subst hab
      have htail := hp.cons_inv
      have hndt : (t.map Prod.fst).Nodup := by
        simp only [List.map_cons, List.nodup_cons] at hnd
        exact hnd.2
      rw [ih t' htail (List.chain'_cons'.mp hs).2 (List.chain'_cons'.mp hs').2 hndt]

theorem entry_chain_of_perm_sorted {l l' : List (List Char × FS)}
    (hp : l.Perm l') (hnd : (l.map Prod.fst).Nodup)
    (hs : l.Chain' (fun p q => entryLe p q = true))
    (hs' : l'.Chain' (fun p q => entryLe p q = true)) : l = l' :=
  keyed_sorted_perm_eq nameLe nameLe_total nameLe_antisymm nameLe_trans l l'
    hp hs hs' hnd

/-- The two sorted forms of permuted entry lists with distinct names agree. -/
theorem sortBy_entryLe_perm_eq (es es' : List (List Char × FS))
    (h : es.Perm es') (hnd : (es.map Prod.fst).Nodup) :
    sortBy entryLe es = sortBy entryLe es' := by
  refine entry_chain_of_perm_sorted ?_ ?_ ?_ ?_
  · exact (sortBy_perm _ es).trans (h.trans (sortBy_perm _ es').symm)
  · exact (((sortBy_perm entryLe es).map Prod.fst).nodup_iff).mpr hnd
  · exact sortBy_chain _ (fun p q => nameLe_total p.1 q.1) es
  · exact sortBy_chain _ (fun p q => nameLe_total p.1 q.1) es'

theorem walkSorted_append (pre : List Char) (l₁ l₂ : List (List Char × FS)) :
    walkSorted pre (l₁ ++ l₂) = walkSorted pre l₁ ++ walkSorted pre l₂ := by
  induction l₁ with
  | nil => simp [walkSorted]
  | cons e rest ih =>
    obtain ⟨n, t⟩ := e
    cases t with
    | file c =>
      rw [List.cons_append, walkSorted, walkSorted, ih]
      simp [List.append_assoc]
    | dir es =>
      rw [List.cons_append, walkSorted, walkSorted, ih]
      simp [List.append_assoc]

theorem wfEntries_mem {es : List (List Char × FS)} {e : List Char × FS}
    (hwf : wfEntries es = true) (hm : e ∈ es) : wfTree e.2 = true := by
  induction es with
  | nil => simp at hm
  | cons hd rest ih =>
    obtain ⟨n, t⟩ := hd
    rw [wfEntries] at hwf
    simp only [Bool.and_eq_true] at hwf
    rcases List.mem_cons.mp hm with h1 | h1
    · rw [h1]
      exact hwf.1.2
    · exact ih hwf.2 h1

theorem wfEntries_nodup {es : List (List Char × FS)}
    (hwf : wfEntries es = true) : (es.map Prod.fst).Nodup := by
  induction es with
  | nil => simp
  | cons hd rest ih =>
    obtain ⟨n, t⟩ := hd
    rw [wfEntries] at hwf
    simp only [Bool.and_eq_true] at hwf
    simp only [List.map_cons, List.nodup_cons]
    refine ⟨?_, ih hwf.2⟩
    intro hmem
    obtain ⟨e, he, hn⟩ := List.mem_map.mp hmem
    have : rest.any (fun e => e.1 == n) = true :=
      List.any_eq_true.mpr ⟨e, he, by simp [hn]⟩
    rw [this] at hwf
    simp at hwf

theorem wfEntries_name {es : List (List Char × FS)} {e : List Char × FS}
    (hwf : wfEntries es = true) (hm : e ∈ es) : wfName e.1 = true := by
  induction es with
  | nil => simp at hm
  | cons hd rest ih =>
    obtain ⟨n, t⟩ := hd
    rw [wfEntries] at hwf
    simp only [Bool.and_eq_true] at hwf
    rcases List.mem_cons.mp hm with h1 | h1
    · rw [h1]
      exact hwf.1.1.1
    · exact ih hwf.2 h1

end SkillsLock

namespace SkillsLock

theorem pruneEntries_eq (l : List (List Char × FS)) :
    pruneEntries l = (l.filter (fun e => !(e.1 == sidecarName))).map
      (fun e => (e.1, pruneTree e.2)) := by
  induction l with
  | nil => rw [pruneEntries]; rfl
  | cons hd rest ih =>
    obtain ⟨n, t⟩ := hd
    by_cases hn : n = sidecarName
    · rw [pruneEntries, if_pos hn, ih, List.filter_cons]
      simp [hn]
    · rw [pruneEntries, if_neg hn, ih, List.filter_cons]
      simp [hn]

theorem pruneEntries_keys (l : List (List Char × FS)) :
    (pruneEntries l).map Prod.fst =
      (l.filter (fun e => !(e.1 == sidecarName))).map Prod.fst := by
  rw [pruneEntries_eq, List.map_map]
  rfl

theorem pruneEntries_chain {l : List (List Char × FS)}
    (h : l.Chain' (fun p q => entryLe p q = true)) :
    (pruneEntries l).Chain' (fun p q => entryLe p q = true) := by
  haveI : IsTrans (List Char × FS) (fun p q => entryLe p q = true) :=
    ⟨fun a b c h1 h2 => nameLe_trans _ _ _ h1 h2⟩
  rw [pruneEntries_eq]
  apply List.chain'_iff_pairwise.mpr
  refine List.Pairwise.map _ ?_
    (List.Pairwise.filter _ (List.chain'_iff_pairwise.mp h))
  intro a b hab
  exact hab

theorem pruneEntries_perm {l l' : List (List Char × FS)} (h : l.Perm l') :
    (pruneEntries l).Perm (pruneEntries l') := by
  rw [pruneEntries_eq, pruneEntries_eq]
  exact (h.filter _).map _

theorem pruneEntries_keys_nodup {l : List (List Char × FS)}
    (h : (l.map Prod.fst).Nodup) : ((pruneEntries l).map Prod.fst).Nodup := by
  rw [pruneEntries_keys]
  exact h.sublist (List.Sublist.map Prod.fst (List.filter_sublist l))

theorem walkDir_prune (N : Nat) :
    ∀ (es : List (List Char × FS)), sizeOf es ≤ N → wfEntries es = true →
    ∀ pre, walkDir pre (pruneEntries es) = walkDir pre es := by
  induction N with
  | zero =>
    intro es hsz _ _
    exact absurd hsz (by cases es <;> simp <;> omega)
  | succ N ihN =>
    intro es hsz hwf pre
    have hnd := wfEntries_nodup hwf
    have hndS : ((sortBy entryLe es).map Prod.fst).Nodup :=
      (((sortBy_perm entryLe es).map Prod.fst).nodup_iff).mpr hnd
    have hstep1 : sortBy entryLe (pruneEntries es) =
        pruneEntries (sortBy entryLe es) := by
      refine entry_chain_of_perm_sorted ?_ ?_ ?_ ?_
      · exact (sortBy_perm _ _).trans
          (pruneEntries_perm (sortBy_perm entryLe es).symm)
      · exact (((sortBy_perm entryLe (pruneEntries es)).map Prod.fst).nodup_iff).mpr
          (pruneEntries_keys_nodup hnd)
      · exact sortBy_chain _ (fun p q => nameLe_total p.1 q.1) _
      · exact pruneEntries_chain
          (sortBy_chain _ (fun p q => nameLe_total p.1 q.1) es)
    rw [walkDir, walkDir, hstep1]
    have hmem : ∀ e ∈ sortBy entryLe es,
        wfTree e.2 = true ∧ sizeOf e < sizeOf es := by
      intro e he
      have hees : e ∈ es := (mem_sortBy entryLe e es).mp he
      refine ⟨wfEntries_mem hwf hees, List.sizeOf_lt_of_mem hees⟩
    revert hmem
    generalize sortBy entryLe es = l
    intro hmem
    induction l with
    | nil => rw [pruneEntries]
    | cons hd rest ihl =>
      obtain ⟨n, t⟩ := hd
      have hhd := hmem (n, t) (by simp)
      have hrest : ∀ e ∈ rest, wfTree e.2 = true ∧ sizeOf e < sizeOf es :=
        fun e he => hmem e (List.mem_cons_of_mem _ he)
      by_cases hn : n = sidecarName
      · rw [pruneEntries, if_pos hn]
        cases t with
        | file c =>
          rw [walkSorted, if_pos hn, ihl hrest, List.nil_append]
        | dir es' =>
          rw [walkSorted, if_pos hn, ihl hrest, List.nil_append]
      · rw [pruneEntries, if_neg hn]
        cases t with
        | file c =>
          rw [pruneTree, walkSorted, walkSorted, ihl hrest]
        | dir es' =>
          rw [pruneTree, walkSorted, walkSorted, ihl hrest]
          have hsz' : sizeOf es' ≤ N := by
            have h1 : sizeOf es' < sizeOf (n, FS.dir es') := by
              simp only [Prod.mk.sizeOf_spec, FS.dir.sizeOf_spec]
              omega
            have h2 := hhd.2
            omega
          have hwf' : wfEntries es' = true := by
            have := hhd.1
            rwa [wfTree] at this
          rw [ihN es' hsz' hwf' (relPath pre n)]

theorem computeSkillHash_prune {es : List (List Char × FS)}
    (hwf : wfEntries es = true) :
    computeSkillHash (pruneEntries es) = computeSkillHash es := by
  unfold computeSkillHash
  rw [walkDir_prune (sizeOf es) es (Nat.le_refl _) hwf]

end SkillsLock

namespace SkillsLock

/-- C10: `computeSkillHash` skips every entry named `.skills-lock` at every
depth of the walk: the hash depends only on the tree with all
`.skills-lock`-named entries (files or whole directories) erased at every
level, so adding, removing, or modifying any such entry anywhere —
including inside nested subdirectories — leaves the hash unchanged. -/
theorem computeSkillHash_sidecar_skipped :
    ∀ es₁ es₂ : List (List Char × FS),
      wfEntries es₁ = true → wfEntries es₂ = true →
      pruneEntries es₁ = pruneEntries es₂ →
      computeSkillHash es₁ = computeSkillHash es₂ := by
  intro es₁ es₂ h1 h2 hp
  rw [← computeSkillHash_prune h1, ← computeSkillHash_prune h2, hp]

theorem computeSkillHash_sidecar_skipped_witness :
    computeSkillHash
        [("sub".data, FS.dir [(".skills-lock".data, FS.file "tampered".data),
            ("a.md".data, FS.file "hello".data)])] =
      computeSkillHash
        [("sub".data, FS.dir [("a.md".data, FS.file "hello".data)])] := by
  apply computeSkillHash_sidecar_skipped
  · simp [wfEntries, wfTree, wfName, sidecarName]
  · simp [wfEntries, wfTree, wfName, sidecarName]
  · simp [pruneEntries, pruneTree, sidecarName]

end SkillsLock

namespace SkillsLock

/-- The contribution of a single sorted-listing entry to the hash stream. -/
def entryStream (pre n : List Char) : FS → List Char
  | FS.file c =>
    if n = sidecarName then []
    else "file:".data ++ relPath pre n ++ '\n' :: (c ++ ['\n'])
  | FS.dir es =>
    if n = sidecarName then [] else walkDir (relPath pre n) es

theorem walkSorted_cons (pre n : List Char) (X : FS)
    (B : List (List Char × FS)) :
    walkSorted pre ((n, X) :: B) = entryStream pre n X ++ walkSorted pre B := by
  cases X with
  | file c => rw [walkSorted]; rfl
  | dir es => rw [walkSorted]; rfl

theorem walkSorted_split (pre n : List Char) (X : FS)
    (A B : List (List Char × FS)) :
    walkSorted pre (A ++ (n, X) :: B) =
      walkSorted pre A ++ (entryStream pre n X ++ walkSorted pre B) := by
  rw [walkSorted_append, walkSorted_cons]

/-- A single content modification of one file somewhere in the tree,
outside any `.skills-lock`-named entry. -/
inductive ModifiedE : List (List Char × FS) → List (List Char × FS) → Prop where
  | file (l₁ l₂ : List (List Char × FS)) (n c₁ c₂ : List Char) :
      n ≠ sidecarName → c₁ ≠ c₂ →
      ModifiedE (l₁ ++ (n, FS.file c₁) :: l₂) (l₁ ++ (n, FS.file c₂) :: l₂)
  | dir (l₁ l₂ : List (List Char × FS)) (n : List Char)
      (es₁ es₂ : List (List Char × FS)) :
      n ≠ sidecarName → ModifiedE es₁ es₂ →
      ModifiedE (l₁ ++ (n, FS.dir es₁) :: l₂) (l₁ ++ (n, FS.dir es₂) :: l₂)

/-- A single addition of one file somewhere in the tree, outside any
`.skills-lock`-named entry (read right-to-left it is a single removal). -/
inductive AddedE : List (List Char × FS) → List (List Char × FS) → Prop where
  | file (l₁ l₂ : List (List Char × FS)) (n c : List Char) :
      n ≠ sidecarName →
      AddedE (l₁ ++ l₂) (l₁ ++ (n, FS.file c) :: l₂)
  | dir (l₁ l₂ : List (List Char × FS)) (n : List Char)
      (es es' : List (List Char × FS)) :
      n ≠ sidecarName → AddedE es es' →
      AddedE (l₁ ++ (n, FS.dir es) :: l₂) (l₁ ++ (n, FS.dir es') :: l₂)

/-- A single rename of one file somewhere in the tree, between two
non-`.skills-lock` names. -/
inductive RenamedE : List (List Char × FS) → List (List Char × FS) → Prop where
  | file (l₁ l₂ : List (List Char × FS)) (n₁ n₂ c : List Char) :
      n₁ ≠ sidecarName → n₂ ≠ sidecarName → n₁ ≠ n₂ →
      RenamedE (l₁ ++ (n₁, FS.file c) :: l₂) (l₁ ++ (n₂, FS.file c) :: l₂)
  | dir (l₁ l₂ : List (List Char × FS)) (n : List Char)
      (es₁ es₂ : List (List Char × FS)) :
      n ≠ sidecarName → RenamedE es₁ es₂ →
      RenamedE (l₁ ++ (n, FS.dir es₁) :: l₂) (l₁ ++ (n, FS.dir es₂) :: l₂)

/-- Replace the payload stored under key `n`. -/
def replacePayload (n : List Char) (X : FS) (l : List (List Char × FS)) :
    List (List Char × FS) :=
  l.map (fun e => if e.1 = n then (n, X) else e)

theorem map_fix {α : Type} {f : α → α} {l : List α} (h : ∀ a ∈ l, f a = a) :
    l.map f = l := by
  induction l with
  | nil => rfl
  | cons a t ih =>
    rw [List.map_cons, h a (List.mem_cons_self a t),
      ih (fun b hb => h b (List.mem_cons_of_mem a hb))]

theorem replacePayload_fst (n : List Char) (X : FS) (e : List Char × FS) :
    (if e.1 = n then (n, X) else e).1 = e.1 := by
  by_cases h : e.1 = n <;> simp [h]

theorem replacePayload_keys (n : List Char) (X : FS)
    (l : List (List Char × FS)) :
    (replacePayload n X l).map Prod.fst = l.map Prod.fst := by
  unfold replacePayload
  rw [List.map_map]
  exact List.map_congr_left (fun e _ => replacePayload_fst n X e)

theorem replacePayload_split {A B : List (List Char × FS)} {n : List Char}
    {X Y : FS} (hA : n ∉ A.map Prod.fst) (hB : n ∉ B.map Prod.fst) :
    replacePayload n X (A ++ (n, Y) :: B) = A ++ (n, X) :: B := by
  unfold replacePayload
  rw [List.map_append, List.map_cons]
  have hid : ∀ (L : List (List Char × FS)), n ∉ L.map Prod.fst →
      L.map (fun e => if e.1 = n then (n, X) else e) = L := by
    intro L hL
    apply map_fix
    intro e he
    rw [if_neg (fun hc => hL (List.mem_map.mpr ⟨e, he, hc⟩))]
  rw [hid A hA, hid B hB, if_pos rfl]

theorem replacePayload_chain {n : List Char} {X : FS}
    {l : List (List Char × FS)}
    (h : l.Chain' (fun p q => entryLe p q = true)) :
    (replacePayload n X l).Chain' (fun p q => entryLe p q = true) := by
  haveI : IsTrans (List Char × FS) (fun p q => entryLe p q = true) :=
    ⟨fun a b c h1 h2 => nameLe_trans _ _ _ h1 h2⟩
  apply List.chain'_iff_pairwise.mpr
  refine List.Pairwise.map _ ?_ (List.chain'_iff_pairwise.mp h)
  intro a b hab
  show entryLe _ _ = true
  unfold entryLe
  rw [replacePayload_fst, replacePayload_fst]
  exact hab

theorem nodup_keys_split {A B : List (List Char × FS)} {n : List Char} {X : FS}
    (h : (((A ++ (n, X) :: B)).map Prod.fst).Nodup) :
    n ∉ A.map Prod.fst ∧ n ∉ B.map Prod.fst := by
  rw [List.map_append, List.map_cons, List.nodup_append] at h
  refine ⟨fun hmem => h.2.2 hmem (List.mem_cons_self _ _), ?_⟩
  have := h.2.1
  rw [List.nodup_cons] at this
  exact this.1

theorem keys_mid (l₁ l₂ : List (List Char × FS)) (n : List Char) (X : FS) :
    ((l₁ ++ (n, X) :: l₂).map Prod.fst) =
      l₁.map Prod.fst ++ n :: l₂.map Prod.fst := by
  rw [List.map_append, List.map_cons]

/-- Replacing the payload under a key transports the sorted form. -/
theorem sortBy_replace {l₁ l₂ A B : List (List Char × FS)} {n : List Char}
    {X₁ X₂ : FS}
    (hnd : (((l₁ ++ (n, X₁) :: l₂)).map Prod.fst).Nodup)
    (hS : sortBy entryLe (l₁ ++ (n, X₁) :: l₂) = A ++ (n, X₁) :: B) :
    sortBy entryLe (l₁ ++ (n, X₂) :: l₂) = A ++ (n, X₂) :: B := by
  have hndS : ((sortBy entryLe (l₁ ++ (n, X₁) :: l₂)).map Prod.fst).Nodup :=
    (((sortBy_perm entryLe _).map Prod.fst).nodup_iff).mpr hnd
  have hABnd : (((A ++ (n, X₁) :: B)).map Prod.fst).Nodup := hS ▸ hndS
  obtain ⟨hnA, hnB⟩ := nodup_keys_split hABnd
  obtain ⟨hnl₁, hnl₂⟩ := nodup_keys_split hnd
  refine entry_chain_of_perm_sorted ?_ ?_ ?_ ?_
  · have he1 : l₁ ++ (n, X₂) :: l₂ =
        replacePayload n X₂ (l₁ ++ (n, X₁) :: l₂) :=
      (replacePayload_split hnl₁ hnl₂).symm
    have hp2 : (replacePayload n X₂ (l₁ ++ (n, X₁) :: l₂)).Perm
        (replacePayload n X₂ (sortBy entryLe (l₁ ++ (n, X₁) :: l₂))) := by
      unfold replacePayload
      exact ((sortBy_perm entryLe _).map _).symm
    have he2 : replacePayload n X₂ (sortBy entryLe (l₁ ++ (n, X₁) :: l₂)) =
        A ++ (n, X₂) :: B := by
      rw [hS]
      exact replacePayload_split hnA hnB
    rw [he2] at hp2
    refine (sortBy_perm entryLe (l₁ ++ (n, X₂) :: l₂)).trans ?_
    rw [he1]
    exact hp2
  · refine (((sortBy_perm entryLe _).map Prod.fst).nodup_iff).mpr ?_
    rw [keys_mid] at hnd ⊢
    exact hnd
  · exact sortBy_chain _ (fun p q => nameLe_total p.1 q.1) _
  · have := @replacePayload_chain n X₂ (sortBy entryLe (l₁ ++ (n, X₁) :: l₂))
      (sortBy_chain entryLe (fun p q => nameLe_total p.1 q.1)
        (l₁ ++ (n, X₁) :: l₂))
    rw [hS, replacePayload_split hnA hnB] at this
    exact this

end SkillsLock

namespace SkillsLock

theorem walkDir_modified {es₁ es₂ : List (List Char × FS)}
    (hM : ModifiedE es₁ es₂) :
    wfEntries es₁ = true → wfEntries es₂ = true →
    ∀ pre, walkDir pre es₁ ≠ walkDir pre es₂ := by
  induction hM with
  | file l₁ l₂ n c₁ c₂ hn hne =>
    intro h1 h2 pre heq
    have hnd₁ := wfEntries_nodup h1
    have hmem : (n, FS.file c₁) ∈ sortBy entryLe (l₁ ++ (n, FS.file c₁) :: l₂) :=
      (mem_sortBy _ _ _).mpr (by simp)
    obtain ⟨A, B, hS⟩ := List.append_of_mem hmem
    have hS₂ := @sortBy_replace l₁ l₂ A B n (FS.file c₁) (FS.file c₂) hnd₁ hS
    rw [walkDir, walkDir, hS, hS₂, walkSorted_split, walkSorted_split] at heq
    have heq2 := List.append_cancel_left heq
    have heq3 : entryStream pre n (FS.file c₁) = entryStream pre n (FS.file c₂) :=
      List.append_cancel_right heq2
    simp only [entryStream, if_neg hn] at heq3
    have heq4 := List.append_cancel_left heq3
    simp only [List.cons.injEq, true_and] at heq4
    exact hne (List.append_cancel_right heq4)
  | dir l₁ l₂ n es₁' es₂' hn hM' ih =>
    intro h1 h2 pre heq
    have hnd₁ := wfEntries_nodup h1
    have hmem : (n, FS.dir es₁') ∈ sortBy entryLe (l₁ ++ (n, FS.dir es₁') :: l₂) :=
      (mem_sortBy _ _ _).mpr (by simp)
    obtain ⟨A, B, hS⟩ := List.append_of_mem hmem
    have hS₂ := @sortBy_replace l₁ l₂ A B n (FS.dir es₁') (FS.dir es₂') hnd₁ hS
    rw [walkDir, walkDir, hS, hS₂, walkSorted_split, walkSorted_split] at heq
    have heq2 := List.append_cancel_left heq
    have heq3 : entryStream pre n (FS.dir es₁') = entryStream pre n (FS.dir es₂') :=
      List.append_cancel_right heq2
    simp only [entryStream, if_neg hn] at heq3
    have hw₁ : wfEntries es₁' = true := by
      have := wfEntries_mem h1
        (show (n, FS.dir es₁') ∈ l₁ ++ (n, FS.dir es₁') :: l₂ by simp)
      rwa [wfTree] at this
    have hw₂ : wfEntries es₂' = true := by
      have := wfEntries_mem h2
        (show (n, FS.dir es₂') ∈ l₁ ++ (n, FS.dir es₂') :: l₂ by simp)
      rwa [wfTree] at this
    exact ih hw₁ hw₂ (relPath pre n) heq3

theorem walkDir_added {es es' : List (List Char × FS)} (hA : AddedE es es') :
    wfEntries es' = true →
    ∀ pre, (walkDir pre es).length < (walkDir pre es').length := by
  induction hA with
  | file l₁ l₂ n c hn =>
    intro h2 pre
    have hnd₂ := wfEntries_nodup h2
    have hmem : (n, FS.file c) ∈ sortBy entryLe (l₁ ++ (n, FS.file c) :: l₂) :=
      (mem_sortBy _ _ _).mpr (by simp)
    obtain ⟨A, B, hS⟩ := List.append_of_mem hmem
    have hndS : ((sortBy entryLe (l₁ ++ (n, FS.file c) :: l₂)).map Prod.fst).Nodup :=
      (((sortBy_perm entryLe _).map Prod.fst).nodup_iff).mpr hnd₂
    have hABnd : (((A ++ (n, FS.file c) :: B)).map Prod.fst).Nodup := hS ▸ hndS
    obtain ⟨hnA, hnB⟩ := nodup_keys_split hABnd
    haveI : IsTrans (List Char × FS) (fun p q => entryLe p q = true) :=
      ⟨fun a b c h1 h2 => nameLe_trans _ _ _ h1 h2⟩
    have hsubAB : (A ++ B).Sublist (A ++ (n, FS.file c) :: B) :=
      List.Sublist.append_left (List.sublist_cons_self _ _) A
    have hS₁ : sortBy entryLe (l₁ ++ l₂) = A ++ B := by
      refine entry_chain_of_perm_sorted ?_ ?_ ?_ ?_
      · have hp : (l₁ ++ (n, FS.file c) :: l₂).Perm (A ++ (n, FS.file c) :: B) := by
          have := sortBy_perm entryLe (l₁ ++ (n, FS.file c) :: l₂)
          rw [hS] at this
          exact this.symm
        have hp2 : ((n, FS.file c) :: (l₁ ++ l₂)).Perm
            ((n, FS.file c) :: (A ++ B)) :=
          (List.perm_middle.symm.trans hp).trans List.perm_middle
        exact (sortBy_perm _ _).trans hp2.cons_inv
      · have hsub : ((l₁ ++ l₂).map Prod.fst).Sublist
            ((l₁ ++ (n, FS.file c) :: l₂).map Prod.fst) := by
          rw [List.map_append, List.map_append, List.map_cons]
          exact List.Sublist.append_left (List.sublist_cons_self _ _) _
        exact (((sortBy_perm entryLe _).map Prod.fst).nodup_iff).mpr
          (hnd₂.sublist hsub)
      · exact sortBy_chain _ (fun p q => nameLe_total p.1 q.1) _
      · have hchain := sortBy_chain entryLe (fun p q => nameLe_total p.1 q.1)
          (l₁ ++ (n, FS.file c) :: l₂)
        rw [hS] at hchain
        exact List.chain'_iff_pairwise.mpr
          ((List.chain'_iff_pairwise.mp hchain).sublist hsubAB)
    rw [walkDir, walkDir, hS, hS₁, walkSorted_split, walkSorted_append]
    have hfl : ("file:".data).length = 5 := rfl
    have hpos : 0 < (entryStream pre n (FS.file c)).length := by
      simp only [entryStream, if_neg hn, List.length_append, hfl]
      omega
    simp only [List.length_append]
    omega
  | dir l₁ l₂ n es es' hn hA' ih =>
    intro h2 pre
    have hnd₂ := wfEntries_nodup h2
    have hnd₁ : ((l₁ ++ (n, FS.dir es) :: l₂).map Prod.fst).Nodup := by
      rw [keys_mid]
      rw [keys_mid] at hnd₂
      exact hnd₂
    have hmem : (n, FS.dir es) ∈ sortBy entryLe (l₁ ++ (n, FS.dir es) :: l₂) :=
      (mem_sortBy _ _ _).mpr (by simp)
    obtain ⟨A, B, hS⟩ := List.append_of_mem hmem
    have hS₂ := @sortBy_replace l₁ l₂ A B n (FS.dir es) (FS.dir es') hnd₁ hS
    rw [walkDir, walkDir, hS, hS₂, walkSorted_split, walkSorted_split]
    have hw' : wfEntries es' = true := by
      have := wfEntries_mem h2
        (show (n, FS.dir es') ∈ l₁ ++ (n, FS.dir es') :: l₂ by simp)
      rwa [wfTree] at this
    have hlt := ih hw' (relPath pre n)
    simp only [entryStream, if_neg hn, List.length_append]
    omega

end SkillsLock

namespace SkillsLock

theorem wfName_ne_nil {n : List Char} (h : wfName n = true) : n ≠ [] := by
  unfold wfName at h
  simp only [Bool.and_eq_true, Bool.not_eq_true', decide_eq_true_eq] at h
  intro hc
  rw [hc] at h
  simp at h

theorem wfName_no_slash {n : List Char} (h : wfName n = true) : '/' ∉ n := by
  unfold wfName at h
  simp only [Bool.and_eq_true, Bool.not_eq_true', decide_eq_true_eq] at h
  exact h.1.2

theorem wfName_no_lf {n : List Char} (h : wfName n = true) : '\n' ∉ n := by
  unfold wfName at h
  simp only [Bool.and_eq_true, Bool.not_eq_true', decide_eq_true_eq] at h
  exact h.2

theorem wfEntries_head_names {n : List Char} {t : FS}
    {rest : List (List Char × FS)}
    (h : wfEntries ((n, t) :: rest) = true) : ∀ e ∈ rest, e.1 ≠ n := by
  rw [wfEntries] at h
  simp only [Bool.and_eq_true] at h
  intro e he hc
  have : rest.any (fun e => e.1 == n) = true :=
    List.any_eq_true.mpr ⟨e, he, by simp [hc]⟩
  rw [this] at h
  simp at h

theorem wfEntries_tail {n : List Char} {t : FS} {rest : List (List Char × FS)}
    (h : wfEntries ((n, t) :: rest) = true) : wfEntries rest = true := by
  rw [wfEntries] at h
  simp only [Bool.and_eq_true] at h
  exact h.2

mutual

/-- The depth-first list of (relative path, content) pairs of the files
that `computeSkillHash` actually hashes, in walk order. -/
def filesDir (pre : List Char) (es : List (List Char × FS)) :
    List (List Char × List Char) :=
  filesSorted pre (sortBy entryLe es)
termination_by (sizeOf es, 1)
decreasing_by
  have hs : sizeOf (sortBy entryLe es) = sizeOf es :=
    (sortBy_perm entryLe es).sizeOf_eq_sizeOf
  simp only [hs]
  exact Prod.Lex.right _ (by omega)

/-- The files contributed by a sorted listing, in order. -/
def filesSorted (pre : List Char) :
    List (List Char × FS) → List (List Char × List Char)
  | [] => []
  | (n, FS.file c) :: rest =>
    (if n = sidecarName then [] else [(relPath pre n, c)]) ++
      filesSorted pre rest
  | (n, FS.dir es) :: rest =>
    (if n = sidecarName then [] else filesDir (relPath pre n) es) ++
      filesSorted pre rest
termination_by l => (sizeOf l, 0)
decreasing_by
  all_goals exact Prod.Lex.left _ _ (by simp <;> omega)

end

/-- The files contributed by a single entry. -/
def entryFiles (pre n : List Char) : FS → List (List Char × List Char)
  | FS.file c => if n = sidecarName then [] else [(relPath pre n, c)]
  | FS.dir es => if n = sidecarName then [] else filesDir (relPath pre n) es

/-- The hash-stream block of one file. -/
def blockOf (p c : List Char) : List Char :=
  "file:".data ++ p ++ '\n' :: (c ++ ['\n'])

/-- The hash stream of a file list. -/
def blockStream (fs : List (List Char × List Char)) : List Char :=
  fs.flatMap (fun pc => blockOf pc.1 pc.2)

theorem blockStream_nil : blockStream [] = [] := rfl

theorem blockStream_cons (pc : List Char × List Char)
    (fs : List (List Char × List Char)) :
    blockStream (pc :: fs) = blockOf pc.1 pc.2 ++ blockStream fs := rfl

theorem blockStream_append (fs₁ fs₂ : List (List Char × List Char)) :
    blockStream (fs₁ ++ fs₂) = blockStream fs₁ ++ blockStream fs₂ :=
  List.flatMap_append fs₁ fs₂ _

theorem filesSorted_cons (pre n : List Char) (X : FS)
    (B : List (List Char × FS)) :
    filesSorted pre ((n, X) :: B) = entryFiles pre n X ++ filesSorted pre B := by
  cases X with
  | file c => rw [filesSorted]; rfl
  | dir es => rw [filesSorted]; rfl

theorem filesSorted_append (pre : List Char) (l₁ l₂ : List (List Char × FS)) :
    filesSorted pre (l₁ ++ l₂) = filesSorted pre l₁ ++ filesSorted pre l₂ := by
  induction l₁ with
  | nil => rw [filesSorted, List.nil_append, List.nil_append]
  | cons e rest ih =>
    obtain ⟨n, t⟩ := e
    rw [List.cons_append, filesSorted_cons, filesSorted_cons, ih,
      List.append_assoc]

theorem filesSorted_flat (pre : List Char) (l : List (List Char × FS)) :
    filesSorted pre l = l.flatMap (fun e => entryFiles pre e.1 e.2) := by
  induction l with
  | nil => rw [filesSorted, List.flatMap_nil]
  | cons e rest ih =>
    obtain ⟨n, t⟩ := e
    rw [filesSorted_cons, List.flatMap_cons, ih]

theorem perm_flatMap {α β : Type} (f : α → List β) {l l' : List α}
    (h : l.Perm l') : (l.flatMap f).Perm (l'.flatMap f) :=
  (h.map f).flatten

theorem filesDir_perm_unsorted (pre : List Char)
    (es : List (List Char × FS)) :
    (filesDir pre es).Perm (filesSorted pre es) := by
  rw [filesDir, filesSorted_flat, filesSorted_flat]
  exact perm_flatMap _ (sortBy_perm entryLe es)

end SkillsLock

namespace SkillsLock

theorem walkDir_blocks (N : Nat) :
    ∀ es : List (List Char × FS), sizeOf es ≤ N →
    ∀ pre, walkDir pre es = blockStream (filesDir pre es) := by
  induction N with
  | zero =>
    intro es hsz
    exact absurd hsz (by cases es <;> simp <;> omega)
  | succ N ihN =>
    intro es hsz pre
    rw [walkDir, filesDir]
    have hmem : ∀ e ∈ sortBy entryLe es, sizeOf e < sizeOf es := by
      intro e he
      have h1 := List.sizeOf_lt_of_mem he
      have h2 := (sortBy_perm entryLe es).sizeOf_eq_sizeOf
      omega
    revert hmem
    generalize sortBy entryLe es = l
    intro hmem
    induction l with
    | nil =>
      rw [walkSorted, filesSorted]
      rfl
    | cons e rest ihl =>
      obtain ⟨n, t⟩ := e
      have hrest : ∀ e ∈ rest, sizeOf e < sizeOf es :=
        fun e he => hmem e (List.mem_cons_of_mem _ he)
      cases t with
      | file c =>
        rw [walkSorted, filesSorted, blockStream_append, ihl hrest]
        congr 1
        by_cases hn : n = sidecarName
        · rw [if_pos hn, if_pos hn]
          rfl
        · rw [if_neg hn, if_neg hn, blockStream_cons, blockStream_nil,
            List.append_nil]
          rfl
      | dir es'' =>
        rw [walkSorted, filesSorted, blockStream_append, ihl hrest]
        congr 1
        by_cases hn : n = sidecarName
        · rw [if_pos hn, if_pos hn]
          rfl
        · rw [if_neg hn, if_neg hn]
          have hsz'' : sizeOf es'' ≤ N := by
            have h1 : sizeOf es'' < sizeOf (n, FS.dir es'') := by
              simp only [Prod.mk.sizeOf_spec, FS.dir.sizeOf_spec]
              omega
            have h2 := hmem (n, FS.dir es'') (List.mem_cons_self _ _)
            omega
          exact ihN es'' hsz'' (relPath pre n)

theorem relPath_inj {pre n₁ n₂ : List Char}
    (h : relPath pre n₁ = relPath pre n₂) : n₁ = n₂ := by
  unfold relPath at h
  by_cases hp : pre = []
  · rw [if_pos hp, if_pos hp] at h
    exact h
  · rw [if_neg hp, if_neg hp] at h
    have h2 := List.append_cancel_left h
    rw [List.cons.injEq] at h2
    exact h2.2

theorem relPath_ne_nil {pre n : List Char} (hn : n ≠ []) : relPath pre n ≠ [] := by
  unfold relPath
  by_cases hp : pre = []
  · rw [if_pos hp]
    exact hn
  · rw [if_neg hp]
    simp

theorem relPath_nested (pre n m : List Char) (hn : n ≠ []) :
    relPath (relPath pre n) m = relPath pre n ++ '/' :: m := by
  rw [show relPath (relPath pre n) m =
    if relPath pre n = [] then m else relPath pre n ++ '/' :: m from rfl,
    if_neg (relPath_ne_nil hn)]

theorem relPath_nolf {pre n : List Char} (hp : '\n' ∉ pre) (hn : '\n' ∉ n) :
    '\n' ∉ relPath pre n := by
  unfold relPath
  by_cases h : pre = []
  · rw [if_pos h]
    exact hn
  · rw [if_neg h]
    intro hmem
    rcases List.mem_append.mp hmem with h1 | h1
    · exact hp h1
    · rcases List.mem_cons.mp h1 with h2 | h2
      · exact absurd h2 (by decide)
      · exact hn h2

theorem entryFiles_shape (N : Nat) : ∀ X : FS, sizeOf X ≤ N → wfTree X = true →
    ∀ pre n pc, wfName n = true → pc ∈ entryFiles pre n X →
    ∃ tl, pc.1 = relPath pre n ++ tl ∧ (tl = [] ∨ ∃ u, tl = '/' :: u) := by
  induction N with
  | zero =>
    intro X hsz
    exact absurd hsz (by cases X <;> simp <;> omega)
  | succ N ihN =>
    intro X hszX hwfX pre n pc hwfn hpc
    cases X with
    | file c =>
      rw [entryFiles] at hpc
      by_cases hn : n = sidecarName
      · rw [if_pos hn] at hpc
        simp at hpc
      · rw [if_neg hn] at hpc
        simp only [List.mem_singleton] at hpc
        refine ⟨[], ?_, Or.inl rfl⟩
        rw [hpc, List.append_nil]
    | dir es'' =>
      rw [entryFiles] at hpc
      by_cases hn : n = sidecarName
      · rw [if_pos hn] at hpc
        simp at hpc
      · rw [if_neg hn] at hpc
        have hpc' : pc ∈ filesSorted (relPath pre n) es'' :=
          ((filesDir_perm_unsorted _ _).mem_iff).mp hpc
        rw [filesSorted_flat] at hpc'
        obtain ⟨e, he, hpe⟩ := List.mem_flatMap.mp hpc'
        obtain ⟨en, eX⟩ := e
        have hwfes : wfEntries es'' = true := by rwa [wfTree] at hwfX
        have hwfe2 : wfTree eX = true := wfEntries_mem hwfes he
        have hwfe1 : wfName en = true := wfEntries_name hwfes he
        have hsze : sizeOf eX ≤ N := by
          have h1 := List.sizeOf_lt_of_mem he
          have h2 : sizeOf (FS.dir es'') ≤ N + 1 := hszX
          simp only [Prod.mk.sizeOf_spec] at h1
          simp only [FS.dir.sizeOf_spec] at h2
          omega
        obtain ⟨tl', hsh', htl'⟩ :=
          ihN eX hsze hwfe2 (relPath pre n) en pc hwfe1 hpe
        refine ⟨'/' :: (en ++ tl'), ?_, Or.inr ⟨_, rfl⟩⟩
        rw [hsh', relPath_nested pre n en (wfName_ne_nil hwfn),
          List.append_assoc, List.cons_append]

theorem relPath_seg_inj {pre n m tl tl' : List Char}
    (hn : '/' ∉ n) (hm : '/' ∉ m)
    (htl : tl = [] ∨ ∃ u, tl = '/' :: u)
    (htl' : tl' = [] ∨ ∃ u, tl' = '/' :: u)
    (h : relPath pre n ++ tl = relPath pre m ++ tl') : n = m := by
  have hcore : n ++ tl = m ++ tl' := by
    unfold relPath at h
    by_cases hp : pre = []
    · rw [if_pos hp, if_pos hp] at h
      exact h
    · rw [if_neg hp, if_neg hp, List.append_assoc, List.append_assoc] at h
      have h2 := List.append_cancel_left h
      rw [List.cons_append, List.cons_append, List.cons.injEq] at h2
      exact h2.2
  have hseg : ∀ (a t : List Char), '/' ∉ a → (t = [] ∨ ∃ u, t = '/' :: u) →
      (a ++ t).takeWhile (fun c => !(c == '/')) = a := by
    intro a t ha ht
    rcases ht with rfl | ⟨u, rfl⟩
    · rw [List.append_nil]
      refine takeWhile_eq_self_of_all ?_
      intro c hc
      have hcs : c ≠ '/' := fun e => ha (e ▸ hc)
      simp [hcs]
    · refine takeWhile_append_cons ?_ (by simp)
      intro c hc
      have hcs : c ≠ '/' := fun e => ha (e ▸ hc)
      simp [hcs]
  have htw := congrArg (List.takeWhile (fun c => !(c == '/'))) hcore
  rw [hseg n tl hn htl, hseg m tl' hm htl'] at htw
  exact htw

end SkillsLock

namespace SkillsLock

theorem filesSorted_paths_nodup (N : Nat) :
    ∀ es, sizeOf es ≤ N → wfEntries es = true →
    ∀ pre, ((filesSorted pre es).map Prod.fst).Nodup := by
  induction N with
  | zero =>
    intro es hsz
    exact absurd hsz (by cases es <;> simp <;> omega)
  | succ N ihN =>
    intro es hsz hwf pre
    cases es with
    | nil =>
      rw [filesSorted]
      simp
    | cons e rest =>
      obtain ⟨n, X⟩ := e
      have hwfn : wfName n = true := wfEntries_name hwf (List.mem_cons_self _ _)
      have hwfX : wfTree X = true := wfEntries_mem hwf (List.mem_cons_self _ _)
      have hwfrest : wfEntries rest = true := wfEntries_tail hwf
      have hszrest : sizeOf rest ≤ N := by
        simp only [List.cons.sizeOf_spec] at hsz
        omega
      rw [filesSorted_cons, List.map_append, List.nodup_append]
      refine ⟨?_, ihN rest hszrest hwfrest pre, ?_⟩
      · cases X with
        | file c =>
          rw [entryFiles]
          by_cases hn : n = sidecarName
          · rw [if_pos hn]
            simp
          · rw [if_neg hn]
            simp
        | dir es'' =>
          rw [entryFiles]
          by_cases hn : n = sidecarName
          · rw [if_pos hn]
            simp
          · rw [if_neg hn]
            have hp := (filesDir_perm_unsorted (relPath pre n) es'').map Prod.fst
            rw [hp.nodup_iff]
            have hsz'' : sizeOf es'' ≤ N := by
              simp only [List.cons.sizeOf_spec, Prod.mk.sizeOf_spec,
                FS.dir.sizeOf_spec] at hsz
              omega
            exact ihN es'' hsz'' (by rwa [wfTree] at hwfX) (relPath pre n)
      · intro p hp₁ hp₂
        obtain ⟨pc, hpc, hpceq⟩ := List.mem_map.mp hp₁
        obtain ⟨pc', hpc', hpceq'⟩ := List.mem_map.mp hp₂
        obtain ⟨tl, hsh, htl⟩ := entryFiles_shape (sizeOf X) X (Nat.le_refl _)
          hwfX pre n pc hwfn hpc
        rw [filesSorted_flat] at hpc'
        obtain ⟨e, he, hpe⟩ := List.mem_flatMap.mp hpc'
        have hwfe1 : wfName e.1 = true := wfEntries_name hwfrest he
        have hwfe2 : wfTree e.2 = true := wfEntries_mem hwfrest he
        obtain ⟨tl', hsh', htl'⟩ := entryFiles_shape (sizeOf e.2) e.2
          (Nat.le_refl _) hwfe2 pre e.1 pc' hwfe1 hpe
        have heqp : relPath pre n ++ tl = relPath pre e.1 ++ tl' := by
          rw [← hsh, ← hsh', hpceq, hpceq']
        have : n = e.1 := relPath_seg_inj (wfName_no_slash hwfn)
          (wfName_no_slash hwfe1) htl htl' heqp
        exact (wfEntries_head_names hwf e he) this.symm

theorem filesDir_paths_nodup {es : List (List Char × FS)}
    (hwf : wfEntries es = true) (pre : List Char) :
    ((filesDir pre es).map Prod.fst).Nodup := by
  have hp := (filesDir_perm_unsorted pre es).map Prod.fst
  rw [hp.nodup_iff]
  exact filesSorted_paths_nodup (sizeOf es) es (Nat.le_refl _) hwf pre

theorem filesSorted_paths_nolf (N : Nat) :
    ∀ es, sizeOf es ≤ N → wfEntries es = true →
    ∀ pre, '\n' ∉ pre → ∀ pc ∈ filesSorted pre es, '\n' ∉ pc.1 := by
  induction N with
  | zero =>
    intro es hsz
    exact absurd hsz (by cases es <;> simp <;> omega)
  | succ N ihN =>
    intro es hsz hwf pre hpre pc hpc
    rw [filesSorted_flat] at hpc
    obtain ⟨e, he, hpe⟩ := List.mem_flatMap.mp hpc
    obtain ⟨n, X⟩ := e
    have hwfn : wfName n = true := wfEntries_name hwf he
    have hwfX : wfTree X = true := wfEntries_mem hwf he
    have hrel : '\n' ∉ relPath pre n := relPath_nolf hpre (wfName_no_lf hwfn)
    cases X with
    | file c =>
      rw [entryFiles] at hpe
      by_cases hn : n = sidecarName
      · rw [if_pos hn] at hpe
        simp at hpe
      · rw [if_neg hn] at hpe
        simp only [List.mem_singleton] at hpe
        rw [hpe]
        exact hrel
    | dir es'' =>
      rw [entryFiles] at hpe
      by_cases hn : n = sidecarName
      · rw [if_pos hn] at hpe
        simp at hpe
      · rw [if_neg hn] at hpe
        have hpe' : pc ∈ filesSorted (relPath pre n) es'' :=
          ((filesDir_perm_unsorted _ _).mem_iff).mp hpe
        have hsz'' : sizeOf es'' ≤ N := by
          have h1 := List.sizeOf_lt_of_mem he
          simp only [Prod.mk.sizeOf_spec, FS.dir.sizeOf_spec] at h1
          omega
        exact ihN es'' hsz'' (by rwa [wfTree] at hwfX) (relPath pre n) hrel pc hpe'

theorem filesDir_paths_nolf {es : List (List Char × FS)}
    (hwf : wfEntries es = true) {pre : List Char} (hpre : '\n' ∉ pre)
    {pc : List Char × List Char} (hpc : pc ∈ filesDir pre es) : '\n' ∉ pc.1 :=
  filesSorted_paths_nolf (sizeOf es) es (Nat.le_refl _) hwf pre hpre pc
    (((filesDir_perm_unsorted _ _).mem_iff).mp hpc)

end SkillsLock

namespace SkillsLock

theorem append_cons_inj_of_not_mem {α : Type} {x : α} :
    ∀ {p₁ p₂ r₁ r₂ : List α}, x ∉ p₁ → x ∉ p₂ →
    p₁ ++ x :: r₁ = p₂ ++ x :: r₂ → p₁ = p₂ ∧ r₁ = r₂ := by
  intro p₁
  induction p₁ with
  | nil =>
    intro p₂ r₁ r₂ h₁ h₂ h
    cases p₂ with
    | nil =>
      rw [List.nil_append, List.nil_append, List.cons.injEq] at h
      exact ⟨rfl, h.2⟩
    | cons b bs =>
      rw [List.nil_append, List.cons_append, List.cons.injEq] at h
      exact absurd (h.1 ▸ List.mem_cons_self b bs) h₂
  | cons a as ih =>
    intro p₂ r₁ r₂ h₁ h₂ h
    cases p₂ with
    | nil =>
      rw [List.nil_append, List.cons_append, List.cons.injEq] at h
      exact absurd (h.1.symm ▸ List.mem_cons_self a as) h₁
    | cons b bs =>
      rw [List.cons_append, List.cons_append, List.cons.injEq] at h
      obtain ⟨rfl, h2⟩ := h
      have hrec := ih (fun hm => h₁ (List.mem_cons_of_mem _ hm))
        (fun hm => h₂ (List.mem_cons_of_mem _ hm)) h2
      exact ⟨by rw [hrec.1], hrec.2⟩

theorem blockOf_head_inj {p₁ p₂ c₁ c₂ r₁ r₂ : List Char}
    (h₁ : '\n' ∉ p₁) (h₂ : '\n' ∉ p₂)
    (h : blockOf p₁ c₁ ++ r₁ = blockOf p₂ c₂ ++ r₂) : p₁ = p₂ := by
  unfold blockOf at h
  simp only [List.append_assoc, List.cons_append, List.nil_append] at h
  simp only [List.cons.injEq, true_and] at h
  exact (append_cons_inj_of_not_mem h₁ h₂ h).1

theorem keyed_mem_eq {M : List (List Char × List Char)}
    (hnd : (M.map Prod.fst).Nodup) {p a b : List Char}
    (ha : (p, a) ∈ M) (hb : (p, b) ∈ M) : a = b := by
  have h := List.inj_on_of_nodup_map hnd ha hb rfl
  rw [Prod.mk.injEq] at h
  exact h.2

theorem rename_stream (N : Nat) :
    ∀ (L₁ L₂ M : List (List Char × List Char)) (q q' c : List Char),
    L₁.length ≤ N → q ≠ q' →
    '\n' ∉ q → '\n' ∉ q' → (∀ pc ∈ M, '\n' ∉ pc.1) →
    (L₁.map Prod.fst).Nodup → (L₂.map Prod.fst).Nodup →
    L₁.Perm ((q, c) :: M) → L₂.Perm ((q', c) :: M) →
    blockStream L₁ ≠ blockStream L₂ := by
  induction N with
  | zero =>
    intro L₁ L₂ M q q' c hlen _ _ _ _ _ _ hp₁ _ _
    have hin : (q, c) ∈ L₁ := hp₁.mem_iff.mpr (List.mem_cons_self _ _)
    have := List.eq_nil_of_length_eq_zero (Nat.le_zero.mp hlen)
    rw [this] at hin
    simp at hin
  | succ N ihN =>
    intro L₁ L₂ M q q' c hlen hqq hlf hlf' hlfM hnd₁ hnd₂ hp₁ hp₂ heq
    have hq₁ : (q, c) ∈ L₁ := hp₁.mem_iff.mpr (List.mem_cons_self _ _)
    have hq₂ : (q', c) ∈ L₂ := hp₂.mem_iff.mpr (List.mem_cons_self _ _)
    cases L₁ with
    | nil => simp at hq₁
    | cons e₁ t₁ =>
      cases L₂ with
      | nil => simp at hq₂
      | cons e₂ t₂ =>
        obtain ⟨p₁, c₁⟩ := e₁
        obtain ⟨p₂, c₂⟩ := e₂
        rw [blockStream_cons, blockStream_cons] at heq
        have hplf₁ : '\n' ∉ p₁ := by
          have hmem : ((p₁, c₁) : List Char × List Char) ∈ (q, c) :: M :=
            hp₁.mem_iff.mp (List.mem_cons_self _ _)
          rcases List.mem_cons.mp hmem with h | h
          · rw [Prod.mk.injEq] at h
            rw [h.1]
            exact hlf
          · exact hlfM _ h
        have hplf₂ : '\n' ∉ p₂ := by
          have hmem : ((p₂, c₂) : List Char × List Char) ∈ (q', c) :: M :=
            hp₂.mem_iff.mp (List.mem_cons_self _ _)
          rcases List.mem_cons.mp hmem with h | h
          · rw [Prod.mk.injEq] at h
            rw [h.1]
            exact hlf'
          · exact hlfM _ h
        have hpp : p₁ = p₂ := blockOf_head_inj hplf₁ hplf₂ heq
        subst hpp
        by_cases hq : p₁ = q
        · subst hq
          have hin : ((p₁, c₂) : List Char × List Char) ∈ (q', c) :: M :=
            hp₂.mem_iff.mp (List.mem_cons_self _ _)
          rcases List.mem_cons.mp hin with h | h
          · rw [Prod.mk.injEq] at h
            exact hqq h.1
          · have hndq := (hp₁.map Prod.fst).nodup_iff.mp hnd₁
            rw [List.map_cons, List.nodup_cons] at hndq
            exact hndq.1 (List.mem_map.mpr ⟨(p₁, c₂), h, rfl⟩)
        · by_cases hq' : p₁ = q'
          · subst hq'
            have hin : ((p₁, c₁) : List Char × List Char) ∈ (q, c) :: M :=
              hp₁.mem_iff.mp (List.mem_cons_self _ _)
            rcases List.mem_cons.mp hin with h | h
            · rw [Prod.mk.injEq] at h
              exact hq h.1
            · have hndq := (hp₂.map Prod.fst).nodup_iff.mp hnd₂
              rw [List.map_cons, List.nodup_cons] at hndq
              exact hndq.1 (List.mem_map.mpr ⟨(p₁, c₁), h, rfl⟩)
          · have hin₁ : ((p₁, c₁) : List Char × List Char) ∈ M := by
              have hmem := hp₁.mem_iff.mp
                (List.mem_cons_self ((p₁, c₁) : List Char × List Char) t₁)
              rcases List.mem_cons.mp hmem with h | h
              · rw [Prod.mk.injEq] at h
                exact absurd h.1 hq
              · exact h
            have hin₂ : ((p₁, c₂) : List Char × List Char) ∈ M := by
              have hmem := hp₂.mem_iff.mp
                (List.mem_cons_self ((p₁, c₂) : List Char × List Char) t₂)
              rcases List.mem_cons.mp hmem with h | h
              · rw [Prod.mk.injEq] at h
                exact absurd h.1 hq'
              · exact h
            have hndM : (M.map Prod.fst).Nodup := by
              have h := (hp₁.map Prod.fst).nodup_iff.mp hnd₁
              rw [List.map_cons, List.nodup_cons] at h
              exact h.2
            have hcc : c₁ = c₂ := keyed_mem_eq hndM hin₁ hin₂
            subst hcc
            have htail := List.append_cancel_left heq
            obtain ⟨u, v, rfl⟩ := List.append_of_mem hin₁
            have hmidperm : ∀ (x : List Char × List Char),
                (x :: (u ++ (p₁, c₁) :: v)).Perm ((p₁, c₁) :: x :: (u ++ v)) :=
              fun x => (List.Perm.cons x List.perm_middle).trans
                (List.Perm.swap (p₁, c₁) x (u ++ v))
            have hper₁ : t₁.Perm ((q, c) :: (u ++ v)) :=
              (hp₁.trans (hmidperm (q, c))).cons_inv
            have hper₂ : t₂.Perm ((q', c) :: (u ++ v)) :=
              (hp₂.trans (hmidperm (q', c))).cons_inv
            have hnd₁' : (t₁.map Prod.fst).Nodup := by
              rw [List.map_cons, List.nodup_cons] at hnd₁
              exact hnd₁.2
            have hnd₂' : (t₂.map Prod.fst).Nodup := by
              rw [List.map_cons, List.nodup_cons] at hnd₂
              exact hnd₂.2
            have hlfM' : ∀ pc ∈ u ++ v, '\n' ∉ pc.1 := by
              intro pc hpc
              apply hlfM
              rcases List.mem_append.mp hpc with h | h
              · exact List.mem_append.mpr (Or.inl h)
              · exact List.mem_append.mpr (Or.inr (List.mem_cons_of_mem _ h))
            have hlen' : t₁.length ≤ N := by
              simp only [List.length_cons] at hlen
              omega
            exact ihN t₁ t₂ (u ++ v) q q' c hlen' hqq hlf hlf'
              hlfM' hnd₁' hnd₂' hper₁ hper₂ htail

end SkillsLock

namespace SkillsLock

theorem renamed_files_perm {es₁ es₂ : List (List Char × FS)}
    (hR : RenamedE es₁ es₂) :
    ∀ pre, ∃ (q q' c : List Char) (M : List (List Char × List Char)),
      q ≠ q' ∧ (filesDir pre es₁).Perm ((q, c) :: M) ∧
      (filesDir pre es₂).Perm ((q', c) :: M) := by
  induction hR with
  | file l₁ l₂ n₁ n₂ c hn₁ hn₂ hne =>
    intro pre
    refine ⟨relPath pre n₁, relPath pre n₂, c,
      filesSorted pre l₁ ++ filesSorted pre l₂,
      fun h => hne (relPath_inj h), ?_, ?_⟩
    · have h1 := filesDir_perm_unsorted pre (l₁ ++ (n₁, FS.file c) :: l₂)
      rw [filesSorted_append, filesSorted_cons, entryFiles, if_neg hn₁] at h1
      refine h1.trans ?_
      have he : filesSorted pre l₁ ++ ([(relPath pre n₁, c)] ++
          filesSorted pre l₂) =
          filesSorted pre l₁ ++ (relPath pre n₁, c) :: filesSorted pre l₂ := by
        simp
      rw [he]
      exact List.perm_middle
    · have h1 := filesDir_perm_unsorted pre (l₁ ++ (n₂, FS.file c) :: l₂)
      rw [filesSorted_append, filesSorted_cons, entryFiles, if_neg hn₂] at h1
      refine h1.trans ?_
      have he : filesSorted pre l₁ ++ ([(relPath pre n₂, c)] ++
          filesSorted pre l₂) =
          filesSorted pre l₁ ++ (relPath pre n₂, c) :: filesSorted pre l₂ := by
        simp
      rw [he]
      exact List.perm_middle
  | dir l₁ l₂ n es₁' es₂' hn hR' ih =>
    intro pre
    obtain ⟨q, q', c, M', hne, hp₁, hp₂⟩ := ih (relPath pre n)
    refine ⟨q, q', c, filesSorted pre l₁ ++ (M' ++ filesSorted pre l₂),
      hne, ?_, ?_⟩
    · have h1 := filesDir_perm_unsorted pre (l₁ ++ (n, FS.dir es₁') :: l₂)
      rw [filesSorted_append, filesSorted_cons, entryFiles, if_neg hn] at h1
      refine h1.trans ?_
      have step1 : (filesSorted pre l₁ ++ (filesDir (relPath pre n) es₁' ++
          filesSorted pre l₂)).Perm (filesSorted pre l₁ ++
          (((q, c) :: M') ++ filesSorted pre l₂)) :=
        List.Perm.append_left _ (List.Perm.append_right _ hp₁)
      refine step1.trans ?_
      rw [List.cons_append]
      exact List.perm_middle
    · have h1 := filesDir_perm_unsorted pre (l₁ ++ (n, FS.dir es₂') :: l₂)
      rw [filesSorted_append, filesSorted_cons, entryFiles, if_neg hn] at h1
      refine h1.trans ?_
      have step1 : (filesSorted pre l₁ ++ (filesDir (relPath pre n) es₂' ++
          filesSorted pre l₂)).Perm (filesSorted pre l₁ ++
          (((q', c) :: M') ++ filesSorted pre l₂)) :=
        List.Perm.append_left _ (List.Perm.append_right _ hp₂)
      refine step1.trans ?_
      rw [List.cons_append]
      exact List.perm_middle

theorem walkDir_renamed {es₁ es₂ : List (List Char × FS)}
    (hR : RenamedE es₁ es₂) (h1 : wfEntries es₁ = true)
    (h2 : wfEntries es₂ = true) {pre : List Char} (hpre : '\n' ∉ pre) :
    walkDir pre es₁ ≠ walkDir pre es₂ := by
  intro heq
  rw [walkDir_blocks (sizeOf es₁) es₁ (Nat.le_refl _) pre,
    walkDir_blocks (sizeOf es₂) es₂ (Nat.le_refl _) pre] at heq
  obtain ⟨q, q', c, M, hne, hp₁, hp₂⟩ := renamed_files_perm hR pre
  have hlfq : '\n' ∉ q := by
    have hm : ((q, c) : List Char × List Char) ∈ filesDir pre es₁ :=
      hp₁.mem_iff.mpr (List.mem_cons_self _ _)
    exact filesDir_paths_nolf h1 hpre hm
  have hlfq' : '\n' ∉ q' := by
    have hm : ((q', c) : List Char × List Char) ∈ filesDir pre es₂ :=
      hp₂.mem_iff.mpr (List.mem_cons_self _ _)
    exact filesDir_paths_nolf h2 hpre hm
  have hlfM : ∀ pc ∈ M, '\n' ∉ pc.1 := by
    intro pc hpc
    have hm : pc ∈ filesDir pre es₁ :=
      hp₁.mem_iff.mpr (List.mem_cons_of_mem _ hpc)
    exact filesDir_paths_nolf h1 hpre hm
  exact rename_stream ((filesDir pre es₁).length) (filesDir pre es₁)
    (filesDir pre es₂) M q q' c (Nat.le_refl _) hne hlfq hlfq' hlfM
    (filesDir_paths_nodup h1 pre) (filesDir_paths_nodup h2 pre) hp₁ hp₂ heq

end SkillsLock

namespace SkillsLock

/-- C3 counterexample: adding a file named `.skills-lock` inside a nested
subdirectory is a genuine file addition — the tree changes, and the added
file is not the top-level sidecar `<skillDir>/.skills-lock` — yet
`computeSkillHash` is unchanged, because the walk skips entries named
`.skills-lock` at every depth, not only at the top level. -/
theorem computeSkillHash_nested_addition_collision :
    computeSkillHash
        [("a.md".data, FS.file "hello".data),
         ("sub".data, FS.dir [("b.md".data, FS.file "bye".data)])] =
      computeSkillHash
        [("a.md".data, FS.file "hello".data),
         ("sub".data, FS.dir [(".skills-lock".data, FS.file "tampered".data),
            ("b.md".data, FS.file "bye".data)])] ∧
    [("a.md".data, FS.file "hello".data),
     ("sub".data, FS.dir [("b.md".data, FS.file "bye".data)])] ≠
      [("a.md".data, FS.file "hello".data),
       ("sub".data, FS.dir [(".skills-lock".data, FS.file "tampered".data),
          ("b.md".data, FS.file "bye".data)])] := by
  constructor
  · have h1 : wfEntries [("a.md".data, FS.file "hello".data),
        ("sub".data, FS.dir [("b.md".data, FS.file "bye".data)])] = true := by
      simp [wfEntries, wfTree, wfName]
    have h2 : wfEntries [("a.md".data, FS.file "hello".data),
        ("sub".data, FS.dir [(".skills-lock".data, FS.file "tampered".data),
          ("b.md".data, FS.file "bye".data)])] = true := by
      simp [wfEntries, wfTree, wfName, sidecarName]
    rw [← computeSkillHash_prune h1, ← computeSkillHash_prune h2]
    congr 1
    simp [pruneEntries, pruneTree, sidecarName]
  · intro h
    simp [FS.dir.injEq] at h

/-- C3 (amended): on well-formed trees (per-directory distinct entry names
that are nonempty and free of `/` and newline), `computeSkillHash` is
independent of the order in which the directory is listed; it changes
under any single content modification, file addition, file removal, or
file rename outside `.skills-lock`-named entries, anywhere in the tree;
and it depends only on the tree with all `.skills-lock`-named entries
erased at every depth, so additions, removals, or edits of such entries —
including nested ones — never change it. -/
theorem computeSkillHash_sensitivity :
    (∀ es₁ es₂ : List (List Char × FS), wfEntries es₁ = true → es₁.Perm es₂ →
      computeSkillHash es₁ = computeSkillHash es₂) ∧
    (∀ es₁ es₂ : List (List Char × FS), wfEntries es₁ = true →
      wfEntries es₂ = true → ModifiedE es₁ es₂ →
      computeSkillHash es₁ ≠ computeSkillHash es₂) ∧
    (∀ es es' : List (List Char × FS), wfEntries es' = true → AddedE es es' →
      computeSkillHash es ≠ computeSkillHash es') ∧
    (∀ es₁ es₂ : List (List Char × FS), wfEntries es₁ = true →
      wfEntries es₂ = true → RenamedE es₁ es₂ →
      computeSkillHash es₁ ≠ computeSkillHash es₂) ∧
    (∀ es₁ es₂ : List (List Char × FS), wfEntries es₁ = true →
      wfEntries es₂ = true → pruneEntries es₁ = pruneEntries es₂ →
      computeSkillHash es₁ = computeSkillHash es₂) := by
  have hcancel : ∀ s₁ s₂ : List Char,
      "sha256:".data ++ s₁ = "sha256:".data ++ s₂ → s₁ = s₂ :=
    fun _ _ h => List.append_cancel_left h
  refine ⟨?_, ?_, ?_, ?_, ?_⟩
  · intro es₁ es₂ h1 hp
    unfold computeSkillHash
    congr 1
    rw [walkDir, walkDir, sortBy_entryLe_perm_eq es₁ es₂ hp (wfEntries_nodup h1)]
  · intro es₁ es₂ h1 h2 hM heq
    exact walkDir_modified hM h1 h2 [] (hcancel _ _ heq)
  · intro es es' h2 hA heq
    have hlt := walkDir_added hA h2 []
    rw [hcancel _ _ heq] at hlt
    exact Nat.lt_irrefl _ hlt
  · intro es₁ es₂ h1 h2 hR heq
    exact walkDir_renamed hR h1 h2 (by simp) (hcancel _ _ heq)
  · intro es₁ es₂ h1 h2 hp
    rw [← computeSkillHash_prune h1, ← computeSkillHash_prune h2, hp]

theorem computeSkillHash_sensitivity_witness :
    computeSkillHash [("a.md".data, FS.file "hello".data)] ≠
      computeSkillHash [("a.md".data, FS.file "bye".data)] :=
  computeSkillHash_sensitivity.2.1 _ _
    (by simp [wfEntries, wfTree, wfName])
    (by simp [wfEntries, wfTree, wfName])
    (ModifiedE.file [] [] "a.md".data "hello".data "bye".data
      (by decide) (by decide))

end SkillsLock
